import Mathlib

/-
Verification of the leftist-heap priority queue of src/src/priority_queue.hpp
(namespace sjtu, template class priority_queue<T, Compare>).

The development has three layers, all translated from the C++ source:

1. A value-level embedding: trees are an inductive type, `copyTree` is the
   identity on values, and the private helper `mergeNodes` together with the
   public operations `top`, `push`, `pop`, `merge`, `operator=` become pure
   functions on a `Queue` record.  This layer settles the functional claims
   (heap order, leftist ranks, merge correctness, tie-break, comparator use,
   empty-queue errors).

2. A fuel-instrumented value-level embedding: each `new Node(...)` (which
   also performs the payload copy) consumes one unit of fuel, and running out
   of fuel models a std::bad_alloc or a throwing payload copy constructor at
   exactly that allocation.  The queue operations mirror the source's
   try/catch blocks that restore the saved root/size and rethrow
   runtime_error.  This layer settles the strong-exception-safety claim.

3. A pointer-level embedding: memory is a list of cells indexed by address
   (`none` = freed), `new` appends a fresh cell (guarded by the same fuel
   oracle), `delete p` frees exactly the one cell at p (struct Node has no
   user destructor, so `delete` never cascades to children), and the helpers
   `copyTree`, `mergeNodes`, `deleteTree` and the mutators `push`/`pop`
   become state transformers.  Recursive functions carry an explicit gas
   bound; every theorem either holds for all gas values or supplies enough
   gas for the trees involved.  This layer settles the frame/leak/sharing
   claims (non-destructive merge, leak on construction failure, copy
   independence).
-/

set_option maxHeartbeats 1000000

namespace sjtu

/-- Mirror of struct Node of priority_queue.hpp at the level of values:
payload `data`, children `left`/`right` (with `nil` playing the role of the
null pointer) and the stored null-path-length `dist`.  `dist` is an `Int`
because `getDist` returns -1 on a null pointer. -/
inductive Tree (α : Type) : Type where
  | nil : Tree α
  | node (data : α) (left : Tree α) (right : Tree α) (dist : Int) : Tree α
deriving DecidableEq

/-- getDist of priority_queue.hpp: stored dist of a node, -1 for nullptr. -/
def getDist {α : Type} : Tree α → Int
  | Tree.nil => -1
  | Tree.node _ _ _ d => d

/-- Number of nodes of a tree. -/
def size {α : Type} : Tree α → Nat
  | Tree.nil => 0
  | Tree.node _ l r _ => 1 + size l + size r

/-- Multiset of payloads stored in a tree. -/
def elems {α : Type} : Tree α → Multiset α
  | Tree.nil => 0
  | Tree.node d l r _ => {d} + elems l + elems r

/-- Payload of the root node, none for the empty tree. -/
def rootData {α : Type} : Tree α → Option α
  | Tree.nil => none
  | Tree.node d _ _ _ => some d

/-- The tail of mergeNodes (lines 51-60 of priority_queue.hpp): attach the
merged right subtree and the copied left subtree to the new node, swap them
if the left one has the smaller dist, and store dist = getDist(right) + 1. -/
def mkNode {α : Type} (d : α) (l : Tree α) (mr : Tree α) : Tree α :=
  if getDist l < getDist mr then Tree.node d mr l (getDist l + 1)
  else Tree.node d l mr (getDist mr + 1)

/-- Value-level mergeNodes of priority_queue.hpp.  copyTree is the identity
on values, so the two null cases return the other operand and the copied
left subtree is the left subtree itself; if cmp(h1.data, h2.data) the
operands are swapped, then the surviving root's right subtree is merged
recursively with the demoted tree. -/
def mergeNodes {α : Type} (cmp : α → α → Bool) : Tree α → Tree α → Tree α
  | Tree.nil, h2 => h2
  | Tree.node d1 l1 r1 s1, Tree.nil => Tree.node d1 l1 r1 s1
  | Tree.node d1 l1 r1 s1, Tree.node d2 l2 r2 s2 =>
    if cmp d1 d2 then
      mkNode d2 l2 (mergeNodes cmp r2 (Tree.node d1 l1 r1 s1))
    else
      mkNode d1 l1 (mergeNodes cmp r1 (Tree.node d2 l2 r2 s2))
termination_by h1 h2 => size h1 + size h2
decreasing_by
  all_goals simp [size]
  all_goals omega

/-- One half of the max-heap property: payload d is not below the payload at
the root of child t (vacuous for an absent child). -/
def childOk {α : Type} (cmp : α → α → Bool) (d : α) : Tree α → Bool
  | Tree.nil => true
  | Tree.node c _ _ _ => !cmp d c

/-- Max-heap order: no node's child payload is strictly greater (under cmp)
than the node's own payload. -/
def heapOk {α : Type} (cmp : α → α → Bool) : Tree α → Bool
  | Tree.nil => true
  | Tree.node d l r _ => childOk cmp d l && childOk cmp d r && heapOk cmp l && heapOk cmp r

/-- Leftist structural invariant: at every node, getDist(left) is at least
getDist(right) and the stored dist equals 1 + min of the children's dists
(an absent child contributing -1). -/
def leftistOk {α : Type} : Tree α → Bool
  | Tree.nil => true
  | Tree.node _ l r d =>
    decide (getDist r ≤ getDist l) && decide (d = 1 + min (getDist l) (getDist r))
      && leftistOk l && leftistOk r

/-- The two exception kinds of the source: container_is_empty thrown by
top/pop on an empty queue, runtime_error rethrown by the catch blocks of
push/pop/merge. -/
inductive QError : Type where
  | containerIsEmpty : QError
  | runtimeError : QError
deriving DecidableEq

/-- Value-level mirror of class priority_queue: root tree, curSize, and the
stored comparator instance. -/
structure Queue (α : Type) where
  root : Tree α
  curSize : Nat
  cmp : α → α → Bool

/-- top() of priority_queue.hpp: throws container_is_empty when empty()
(curSize = 0), otherwise returns the root payload.  The method is const and
performs no mutation, which the pure type makes explicit.  The inner Option
is none exactly when curSize is nonzero but the root pointer is null, the
state in which the C++ would dereference nullptr; such a state is never
reachable (curSize always equals the node count, proved below). -/
def topQ {α : Type} (q : Queue α) : Except QError (Option α) :=
  if q.curSize = 0 then Except.error QError.containerIsEmpty
  else Except.ok (rootData q.root)

/-- push(e) of priority_queue.hpp at the value level: merge the current tree
with a fresh singleton node (dist 0) and increment curSize.  The fuel layer
below adds the failure behaviour. -/
def pushQ {α : Type} (e : α) (q : Queue α) : Queue α :=
  { root := mergeNodes q.cmp q.root (Tree.node e Tree.nil Tree.nil 0)
    curSize := q.curSize + 1
    cmp := q.cmp }

/-- pop() of priority_queue.hpp at the value level: error on an empty queue,
otherwise the new tree is the merge of the two (copied) children of the root
and curSize decreases.  The nil-root-with-nonzero-count branch is the
nullptr dereference of the C++ (unreachable from reachable states); it is
mapped to runtimeError with the state unchanged only to make the match
total. -/
def popQ {α : Type} (q : Queue α) : Queue α × Option QError :=
  if q.curSize = 0 then (q, some QError.containerIsEmpty)
  else
    match q.root with
    | Tree.nil => (q, some QError.runtimeError)
    | Tree.node _ l r _ =>
      ({ root := mergeNodes q.cmp l r, curSize := q.curSize - 1, cmp := q.cmp }, none)

/-- merge(other) of priority_queue.hpp for two distinct queue objects, at the
value level: self adopts the merge of the two trees (built with self's
stored comparator, since mergeNodes is a member of self), curSize becomes
the sum, and other is reset to empty with its own comparator untouched. -/
def mergeQ {α : Type} (a : Queue α) (b : Queue α) : Queue α × Queue α :=
  ({ root := mergeNodes a.cmp a.root b.root, curSize := a.curSize + b.curSize, cmp := a.cmp },
   { root := Tree.nil, curSize := 0, cmp := b.cmp })

/-- Public merge entry point: line 230 of priority_queue.hpp returns at once
when &other == this; the Boolean records that pointer-identity test, which
has no value-level counterpart. -/
def mergeOp {α : Type} (a : Queue α) (b : Queue α) (sameObject : Bool) : Queue α × Queue α :=
  if sameObject then (a, b) else mergeQ a b

/-- operator= of priority_queue.hpp at the value level: self-assignment
(this == &other, recorded by the Boolean) returns *this unchanged; otherwise
the result holds a clone of the source tree (identity on values), the
source's size and the source's comparator. -/
def opAssign {α : Type} (sameObject : Bool) (dst : Queue α) (src : Queue α) : Queue α :=
  if sameObject then dst
  else { root := src.root, curSize := src.curSize, cmp := src.cmp }

/-- Queue states reachable from the default constructor by successful
push/pop/merge operations (copy construction and assignment reproduce a
reachable state verbatim at the value level, so they add nothing). -/
inductive Reachable {α : Type} (cmp : α → α → Bool) : Queue α → Prop where
  | init : Reachable cmp { root := Tree.nil, curSize := 0, cmp := cmp }
  | push (e : α) {q : Queue α} : Reachable cmp q → Reachable cmp (pushQ e q)
  | pop {q q' : Queue α} : Reachable cmp q → popQ q = (q', none) → Reachable cmp q'
  | mergeL {a b : Queue α} : Reachable cmp a → Reachable cmp b →
      Reachable cmp (mergeQ a b).1
  | mergeR {a b : Queue α} : Reachable cmp a → Reachable cmp b →
      Reachable cmp (mergeQ a b).2

/-- Comparator used by concrete witnesses: ascending less-than on Nat,
the default std::less<int> of the source's test scenarios. -/
def cmpNat : Nat → Nat → Bool := fun a b => decide (a < b)

/-- Fuel-instrumented copyTree (lines 71-85): each `new Node(node->data)`
consumes one unit of fuel; exhausted fuel is the injected allocation or
payload-copy failure, returned as none together with the remaining fuel.
Allocations happen in source order: this node, then the left clone, then
the right clone. -/
def copyTreeF {α : Type} : Tree α → Nat → Option (Tree α) × Nat
  | Tree.nil, f => (some Tree.nil, f)
  | Tree.node d l r s, f =>
    if f = 0 then (none, f)
    else
      match copyTreeF l (f - 1) with
      | (none, f1) => (none, f1)
      | (some l1, f1) =>
        match copyTreeF r f1 with
        | (none, f2) => (none, f2)
        | (some r1, f2) => (some (Tree.node d l1 r1 s), f2)

/-- Fuel-instrumented mergeNodes (lines 32-68): the null cases call
copyTree, otherwise one allocation for the new node, then the recursive
merge of the surviving root's right subtree with the demoted tree, then the
copy of the surviving root's left subtree. -/
def mergeNodesF {α : Type} (cmp : α → α → Bool) : Tree α → Tree α → Nat → Option (Tree α) × Nat
  | Tree.nil, h2, f => copyTreeF h2 f
  | Tree.node d1 l1 r1 s1, Tree.nil, f => copyTreeF (Tree.node d1 l1 r1 s1) f
  | Tree.node d1 l1 r1 s1, Tree.node d2 l2 r2 s2, f =>
    if f = 0 then (none, f)
    else
      if cmp d1 d2 then
        match mergeNodesF cmp r2 (Tree.node d1 l1 r1 s1) (f - 1) with
        | (none, f1) => (none, f1)
        | (some mr, f1) =>
          match copyTreeF l2 f1 with
          | (none, f2) => (none, f2)
          | (some cl, f2) => (some (mkNode d2 cl mr), f2)
      else
        match mergeNodesF cmp r1 (Tree.node d2 l2 r2 s2) (f - 1) with
        | (none, f1) => (none, f1)
        | (some mr, f1) =>
          match copyTreeF l1 f1 with
          | (none, f2) => (none, f2)
          | (some cl, f2) => (some (mkNode d1 cl mr), f2)
termination_by h1 h2 _ => size h1 + size h2
decreasing_by
  all_goals simp [size]
  all_goals omega

/-- Fuel-instrumented push (lines 154-173): one allocation for the new
singleton, then mergeNodes; on any failure the catch block restores the
saved root and curSize (leaving the queue exactly as passed in) and throws
runtime_error. -/
def pushF {α : Type} (e : α) (q : Queue α) (f : Nat) : Queue α × Option QError × Nat :=
  if f = 0 then (q, some QError.runtimeError, f)
  else
    match mergeNodesF q.cmp q.root (Tree.node e Tree.nil Tree.nil 0) (f - 1) with
    | (none, f1) => (q, some QError.runtimeError, f1)
    | (some t, f1) =>
      ({ root := t, curSize := q.curSize + 1, cmp := q.cmp }, none, f1)

/-- Fuel-instrumented pop (lines 179-205): container_is_empty before the try
block when curSize = 0; otherwise clone both children of the root, merge the
clones, and on any failure restore the saved state and throw runtime_error.
The nil-root branch is the unreachable nullptr dereference, as in popQ. -/
def popF {α : Type} (q : Queue α) (f : Nat) : Queue α × Option QError × Nat :=
  if q.curSize = 0 then (q, some QError.containerIsEmpty, f)
  else
    match q.root with
    | Tree.nil => (q, some QError.runtimeError, f)
    | Tree.node _ l r _ =>
      match copyTreeF l f with
      | (none, f1) => (q, some QError.runtimeError, f1)
      | (some l1, f1) =>
        match copyTreeF r f1 with
        | (none, f2) => (q, some QError.runtimeError, f2)
        | (some r1, f2) =>
          match mergeNodesF q.cmp l1 r1 f2 with
          | (none, f3) => (q, some QError.runtimeError, f3)
          | (some t, f3) =>
            ({ root := t, curSize := q.curSize - 1, cmp := q.cmp }, none, f3)

/-- Fuel-instrumented merge of two distinct queue objects (lines 229-263):
clone both trees, merge the clones with self's comparator, and on any
failure restore both queues' saved roots and sizes (leaving both exactly as
passed in) and throw runtime_error; on success other is reset to empty. -/
def mergeF {α : Type} (a : Queue α) (b : Queue α) (f : Nat) :
    Queue α × Queue α × Option QError × Nat :=
  match copyTreeF a.root f with
  | (none, f1) => (a, b, some QError.runtimeError, f1)
  | (some c1, f1) =>
    match copyTreeF b.root f1 with
    | (none, f2) => (a, b, some QError.runtimeError, f2)
    | (some c2, f2) =>
      match mergeNodesF a.cmp c1 c2 f2 with
      | (none, f3) => (a, b, some QError.runtimeError, f3)
      | (some t, f3) =>
        ({ root := t, curSize := a.curSize + b.curSize, cmp := a.cmp },
         { root := Tree.nil, curSize := 0, cmp := b.cmp }, none, f3)

/-- A heap cell: the contents of one struct Node object in memory, with
children as optional addresses (none = nullptr). -/
structure Cell (α : Type) where
  data : α
  left : Option Nat
  right : Option Nat
  dist : Int
deriving DecidableEq

/-- Pointer-level machine state: memory is a list of cells indexed by
address, where entry none records a freed cell; fuel is the allocation
oracle (none = allocation never fails, some k = the k-th next allocation
throws). -/
structure St (α : Type) where
  mem : List (Option (Cell α))
  fuel : Option Nat
deriving DecidableEq

/-- new Node(...): fails exactly when the fuel oracle says so, otherwise
appends a fresh cell at the next address. -/
def allocCell {α : Type} (st : St α) (c : Cell α) : Option (Nat × St α) :=
  match st.fuel with
  | none => some (st.mem.length, { mem := st.mem ++ [some c], fuel := none })
  | some 0 => none
  | some (k + 1) => some (st.mem.length, { mem := st.mem ++ [some c], fuel := some k })

/-- delete p: frees the single cell at p.  struct Node has no destructor,
so deleting a node does not delete its children. -/
def freeCell {α : Type} (st : St α) (p : Nat) : St α :=
  { mem := st.mem.set p none, fuel := st.fuel }

/-- Assignment to the fields of the node at p. -/
def writeCell {α : Type} (st : St α) (p : Nat) (c : Cell α) : St α :=
  { mem := st.mem.set p (some c), fuel := st.fuel }

/-- Dereference: the cell at p, or none if p was freed or never allocated. -/
def readCell {α : Type} (st : St α) (p : Nat) : Option (Cell α) :=
  match st.mem[p]? with
  | some (some c) => some c
  | _ => none

/-- Pointer-level getDist: -1 for nullptr, else the stored dist.  A dangling
pointer also yields -1; it is never followed on well-formed heaps. -/
def getDistM {α : Type} (st : St α) : Option Nat → Int
  | none => -1
  | some p =>
    match readCell st p with
    | some c => c.dist
    | none => -1

/-- Pointer-level copyTree (lines 71-85).  gas bounds the recursion depth
(the C++ recursion terminates because well-formed heaps are finite trees);
running out of gas reports failure with the state untouched and is never hit
when gas exceeds the tree size.  Failure paths mirror the catch block
exactly: `delete newNode` frees only the new node itself, so a left clone
already attached to it stays allocated. -/
def copyTreeM {α : Type} : Nat → Option Nat → St α → Except Unit (Option Nat) × St α
  | 0, _, st => (Except.error (), st)
  | _ + 1, none, st => (Except.ok none, st)
  | g + 1, some p, st =>
    match readCell st p with
    | none => (Except.error (), st)
    | some c =>
      match allocCell st { data := c.data, left := none, right := none, dist := 0 } with
      | none => (Except.error (), st)
      | some (q, st1) =>
        match copyTreeM g c.left st1 with
        | (Except.error e, st2) => (Except.error e, freeCell st2 q)
        | (Except.ok l1, st2) =>
          let st3 := writeCell st2 q { data := c.data, left := l1, right := none, dist := 0 }
          match copyTreeM g c.right st3 with
          | (Except.error e, st4) => (Except.error e, freeCell st4 q)
          | (Except.ok r1, st4) =>
            (Except.ok (some q), writeCell st4 q { data := c.data, left := l1, right := r1, dist := c.dist })

/-- Pointer-level mergeNodes (lines 32-68).  Null cases call copyTree; both
other operands are read, swapped when cmp says so, one node is allocated
from the surviving root's payload, the recursive merge and then the left
copy are run, and the final writes attach both subtrees (swapped if needed)
and store dist.  The catch block frees only the new node, so a merged right
subtree built before a failing left copy stays allocated. -/
def mergeNodesM {α : Type} (cmp : α → α → Bool) :
    Nat → Option Nat → Option Nat → St α → Except Unit (Option Nat) × St α
  | 0, _, _, st => (Except.error (), st)
  | g + 1, none, h2, st => copyTreeM g h2 st
  | g + 1, some p1, none, st => copyTreeM g (some p1) st
  | g + 1, some p1, some p2, st =>
    match readCell st p1, readCell st p2 with
    | some c1, some c2 =>
      let ca := if cmp c1.data c2.data then c2 else c1
      let pb := if cmp c1.data c2.data then p1 else p2
      match allocCell st { data := ca.data, left := none, right := none, dist := 0 } with
      | none => (Except.error (), st)
      | some (q, st1) =>
        match mergeNodesM cmp g ca.right (some pb) st1 with
        | (Except.error e, st2) => (Except.error e, freeCell st2 q)
        | (Except.ok mr, st2) =>
          match copyTreeM g ca.left st2 with
          | (Except.error e, st3) => (Except.error e, freeCell st3 q)
          | (Except.ok cl, st3) =>
            let dl := getDistM st3 cl
            let dr := getDistM st3 mr
            let nl := if dl < dr then mr else cl
            let nr := if dl < dr then cl else mr
            (Except.ok (some q),
             writeCell st3 q { data := ca.data, left := nl, right := nr, dist := getDistM st3 nr + 1 })
    | _, _ => (Except.error (), st)

/-- Pointer-level deleteTree (lines 88-93): post-order, children first, then
delete the node itself.  Deleting nullptr (or, on malformed heaps only, a
dangling pointer) is a no-op; gas as in copyTreeM. -/
def deleteTreeM {α : Type} : Nat → Option Nat → St α → St α
  | 0, _, st => st
  | _ + 1, none, st => st
  | g + 1, some p, st =>
    match readCell st p with
    | none => st
    | some c => freeCell (deleteTreeM g c.right (deleteTreeM g c.left st)) p

/-- Pointer-level queue handle: the root pointer and curSize.  The
comparator is a parameter of the operations (one fixed instance per queue,
as in the template). -/
structure QueueM where
  root : Option Nat
  curSize : Nat
deriving DecidableEq

/-- Pointer-level push (lines 154-173): allocate the singleton, merge
non-destructively, and only on success delete the old tree and adopt the
new root.  On failure the saved root/size are restored (the handle passed
in is returned unchanged) and runtime_error surfaces; the singleton then
stays allocated, exactly as in the source, which never deletes newNode. -/
def pushM {α : Type} (cmp : α → α → Bool) (e : α) (q : QueueM) (g : Nat) (st : St α) :
    QueueM × Option QError × St α :=
  match allocCell st { data := e, left := none, right := none, dist := 0 } with
  | none => (q, some QError.runtimeError, st)
  | some (n, st1) =>
    match mergeNodesM cmp g q.root (some n) st1 with
    | (Except.error _, st2) => (q, some QError.runtimeError, st2)
    | (Except.ok newRoot, st2) =>
      ({ root := newRoot, curSize := q.curSize + 1 }, none, deleteTreeM g q.root st2)

/-- Pointer-level pop (lines 179-205): container_is_empty when curSize = 0;
otherwise clone both children of the root, merge the clones, and only on
success delete the old tree and adopt the merged clone.  Failure restores
the handle and surfaces runtime_error.  The branches for a null or dangling
root with nonzero curSize are the source's nullptr dereference, unreachable
from well-formed states. -/
def popM {α : Type} (cmp : α → α → Bool) (q : QueueM) (g : Nat) (st : St α) :
    QueueM × Option QError × St α :=
  if q.curSize = 0 then (q, some QError.containerIsEmpty, st)
  else
    match q.root with
    | none => (q, some QError.runtimeError, st)
    | some p =>
      match readCell st p with
      | none => (q, some QError.runtimeError, st)
      | some c =>
        match copyTreeM g c.left st with
        | (Except.error _, st1) => (q, some QError.runtimeError, st1)
        | (Except.ok l1, st1) =>
          match copyTreeM g c.right st1 with
          | (Except.error _, st2) => (q, some QError.runtimeError, st2)
          | (Except.ok r1, st2) =>
            match mergeNodesM cmp g l1 r1 st2 with
            | (Except.error _, st3) => (q, some QError.runtimeError, st3)
            | (Except.ok nr, st3) =>
              ({ root := nr, curSize := q.curSize - 1 }, none, deleteTreeM g q.root st3)

/-- rep mem a t L: the pointer a represents the value tree t in memory mem,
and L lists the addresses of the tree's nodes (root first, then the left
subtree's addresses, then the right subtree's). -/
def rep {α : Type} (mem : List (Option (Cell α))) : Option Nat → Tree α → List Nat → Prop
  | none, Tree.nil, L => L = []
  | some _, Tree.nil, _ => False
  | none, Tree.node _ _ _ _, _ => False
  | some p, Tree.node d l r dd, L =>
    ∃ c Ll Lr, mem[p]? = some (some c) ∧ c.data = d ∧ c.dist = dd ∧
      L = p :: (Ll ++ Lr) ∧ rep mem c.left l Ll ∧ rep mem c.right r Lr

/-- The fuel oracle allows at least n more successful allocations. -/
def fuelGe (f : Option Nat) (n : Nat) : Prop :=
  ∀ k, f = some k → n ≤ k

/-- Fuel left after n successful allocations. -/
def fuelSub (f : Option Nat) (n : Nat) : Option Nat :=
  f.map (fun k => k - n)

/-- A mutation applied to a queue: push(e) or pop(). -/
inductive OpK (α : Type) : Type where
  | push (e : α) : OpK α
  | pop : OpK α

/-- Run a sequence of push/pop mutations on one queue at the pointer level.
Each step receives gas st.mem.length + 3, which exceeds every tree size
involved because a well-formed tree has pairwise distinct node addresses
below st.mem.length. -/
def runOps {α : Type} (cmp : α → α → Bool) :
    List (OpK α) → QueueM → St α → QueueM × St α
  | [], q, st => (q, st)
  | OpK.push e :: ops, q, st =>
    let r := pushM cmp e q (st.mem.length + 3) st
    runOps cmp ops r.1 r.2.2
  | OpK.pop :: ops, q, st =>
    let r := popM cmp q (st.mem.length + 3) st
    runOps cmp ops r.1 r.2.2

/-- Two tree owners live independently in the same memory: a pointer aRoot
representing ta on addresses La, a queue handle b whose tree tb lives on
addresses Lb, both well-formed (no duplicate nodes), sharing no node, with
b's curSize consistent and no failure injection pending. -/
def indep {α : Type} (st : St α) (aRoot : Option Nat) (ta : Tree α) (La : List Nat)
    (b : QueueM) (tb : Tree α) (Lb : List Nat) : Prop :=
  rep st.mem aRoot ta La ∧ rep st.mem b.root tb Lb ∧ La.Nodup ∧ Lb.Nodup ∧
    (∀ i ∈ La, i ∉ Lb) ∧ b.curSize = size tb ∧ st.fuel = none

/-- Frame relation: st' extends st without disturbing it: memory only grew, and every cell
that existed in st (allocated or already freed) is bit-for-bit unchanged.
This is the frame property of the tree-building helpers, which write only to
cells they allocate themselves. -/
def framePres {α : Type} (st st' : St α) : Prop :=
  st.mem.length ≤ st'.mem.length ∧ ∀ i, i < st.mem.length → st'.mem[i]? = st.mem[i]?

theorem elems_mkNode {α : Type} (d : α) (l m : Tree α) :
    elems (mkNode d l m) = {d} + elems l + elems m := by
  unfold mkNode
  split
  · simp only [elems]
    abel
  · rfl

theorem rootData_mkNode {α : Type} (d : α) (l m : Tree α) :
    rootData (mkNode d l m) = some d := by
  unfold mkNode
  split <;> rfl

theorem card_elems {α : Type} (t : Tree α) : Multiset.card (elems t) = size t := by
  induction t with
  | nil => rfl
  | node d l r dd ihl ihr => simp [elems, size, ihl, ihr]; omega

theorem elems_mergeNodes {α : Type} (cmp : α → α → Bool) (h1 h2 : Tree α) :
    elems (mergeNodes cmp h1 h2) = elems h1 + elems h2 := by
  induction h1, h2 using mergeNodes.induct cmp with
  | case1 h2 => simp [mergeNodes, elems]
  | case2 d1 l1 r1 s1 => simp [mergeNodes, elems]
  | case3 d1 l1 r1 s1 d2 l2 r2 s2 hc ih =>
    rw [mergeNodes, if_pos hc, elems_mkNode, ih]
    simp only [elems]
    abel
  | case4 d1 l1 r1 s1 d2 l2 r2 s2 hc ih =>
    rw [mergeNodes, if_neg hc, elems_mkNode, ih]
    simp only [elems]
    abel

theorem size_mergeNodes {α : Type} (cmp : α → α → Bool) (h1 h2 : Tree α) :
    size (mergeNodes cmp h1 h2) = size h1 + size h2 := by
  rw [← card_elems, ← card_elems, ← card_elems, elems_mergeNodes]
  simp

theorem rootData_mergeNodes {α : Type} (cmp : α → α → Bool)
    (d1 : α) (l1 r1 : Tree α) (s1 : Int) (d2 : α) (l2 r2 : Tree α) (s2 : Int) :
    rootData (mergeNodes cmp (Tree.node d1 l1 r1 s1) (Tree.node d2 l2 r2 s2)) =
      some (if cmp d1 d2 then d2 else d1) := by
  rw [mergeNodes]
  by_cases hc : cmp d1 d2 = true
  · rw [if_pos hc, if_pos hc, rootData_mkNode]
  · rw [if_neg hc, if_neg hc, rootData_mkNode]

theorem childOk_mkNode {α : Type} (cmp : α → α → Bool) (d e : α) (l m : Tree α) :
    childOk cmp d (mkNode e l m) = !cmp d e := by
  unfold mkNode
  split <;> rfl

theorem childOk_mergeNodes {α : Type} (cmp : α → α → Bool) (d : α) (h1 h2 : Tree α)
    (hc1 : childOk cmp d h1 = true) (hc2 : childOk cmp d h2 = true) :
    childOk cmp d (mergeNodes cmp h1 h2) = true := by
  cases h1 with
  | nil => rw [mergeNodes]; exact hc2
  | node d1 l1 r1 s1 =>
    cases h2 with
    | nil => rw [mergeNodes]; exact hc1
    | node d2 l2 r2 s2 =>
      rw [mergeNodes]
      by_cases hb : cmp d1 d2 = true
      · rw [if_pos hb, childOk_mkNode]
        simpa [childOk] using hc2
      · rw [if_neg hb, childOk_mkNode]
        simpa [childOk] using hc1

theorem heapOk_mkNode {α : Type} (cmp : α → α → Bool) (d : α) (l m : Tree α)
    (h1 : childOk cmp d l = true) (h2 : childOk cmp d m = true)
    (h3 : heapOk cmp l = true) (h4 : heapOk cmp m = true) :
    heapOk cmp (mkNode d l m) = true := by
  unfold mkNode
  split <;> simp [heapOk, h1, h2, h3, h4]

theorem heapOk_mergeNodes {α : Type} (cmp : α → α → Bool)
    (hasym : ∀ x y, cmp x y = true → cmp y x = false) (h1 h2 : Tree α)
    (hh1 : heapOk cmp h1 = true) (hh2 : heapOk cmp h2 = true) :
    heapOk cmp (mergeNodes cmp h1 h2) = true := by
  induction h1, h2 using mergeNodes.induct cmp with
  | case1 h2 => rw [mergeNodes]; exact hh2
  | case2 d1 l1 r1 s1 => rw [mergeNodes]; exact hh1
  | case3 d1 l1 r1 s1 d2 l2 r2 s2 hc ih =>
    rw [mergeNodes, if_pos hc]
    have h2' := hh2
    simp only [heapOk, Bool.and_eq_true] at h2'
    refine heapOk_mkNode cmp d2 l2 _ h2'.1.1.1 ?_ h2'.1.2 (ih h2'.2 hh1)
    refine childOk_mergeNodes cmp d2 _ _ h2'.1.1.2 ?_
    simp [childOk, hasym d1 d2 hc]
  | case4 d1 l1 r1 s1 d2 l2 r2 s2 hc ih =>
    rw [mergeNodes, if_neg hc]
    have h1' := hh1
    simp only [heapOk, Bool.and_eq_true] at h1'
    refine heapOk_mkNode cmp d1 l1 _ h1'.1.1.1 ?_ h1'.1.2 (ih h1'.2 hh2)
    refine childOk_mergeNodes cmp d1 _ _ h1'.1.1.2 ?_
    simp only [childOk]
    simp [Bool.eq_false_iff, hc]

theorem leftistOk_mkNode {α : Type} (d : α) (l m : Tree α)
    (h1 : leftistOk l = true) (h2 : leftistOk m = true) :
    leftistOk (mkNode d l m) = true := by
  unfold mkNode
  split
  · simp only [leftistOk, h1, h2, Bool.and_true, Bool.and_eq_true, decide_eq_true_eq]
    omega
  · simp only [leftistOk, h1, h2, Bool.and_true, Bool.and_eq_true, decide_eq_true_eq]
    omega

theorem leftistOk_mergeNodes {α : Type} (cmp : α → α → Bool) (h1 h2 : Tree α)
    (hh1 : leftistOk h1 = true) (hh2 : leftistOk h2 = true) :
    leftistOk (mergeNodes cmp h1 h2) = true := by
  induction h1, h2 using mergeNodes.induct cmp with
  | case1 h2 => rw [mergeNodes]; exact hh2
  | case2 d1 l1 r1 s1 => rw [mergeNodes]; exact hh1
  | case3 d1 l1 r1 s1 d2 l2 r2 s2 hc ih =>
    rw [mergeNodes, if_pos hc]
    have h2' := hh2
    simp only [leftistOk, Bool.and_eq_true] at h2'
    exact leftistOk_mkNode d2 l2 _ h2'.1.2 (ih h2'.2 hh1)
  | case4 d1 l1 r1 s1 d2 l2 r2 s2 hc ih =>
    rw [mergeNodes, if_neg hc]
    have h1' := hh1
    simp only [leftistOk, Bool.and_eq_true] at h1'
    exact leftistOk_mkNode d1 l1 _ h1'.1.2 (ih h1'.2 hh2)

theorem heap_below {α : Type} (cmp : α → α → Bool)
    (hnt : ∀ x y z, cmp x y = false → cmp y z = false → cmp x z = false) :
    ∀ (t : Tree α) (d : α), heapOk cmp t = true → childOk cmp d t = true →
      ∀ x ∈ elems t, cmp d x = false := by
  intro t
  induction t with
  | nil => intro d _ _ x hx; simp [elems] at hx
  | node c l r dd ihl ihr =>
    intro d hh hc x hx
    simp only [heapOk, Bool.and_eq_true] at hh
    simp only [childOk, Bool.not_eq_true'] at hc
    simp only [elems, Multiset.mem_add, Multiset.mem_singleton] at hx
    rcases hx with (hx | hx) | hx
    · subst hx; exact hc
    · exact hnt d c x hc (ihl c hh.1.2 hh.1.1.1 x hx)
    · exact hnt d c x hc (ihr c hh.2 hh.1.1.2 x hx)

theorem heap_root_ge {α : Type} (cmp : α → α → Bool)
    (hirr : ∀ x, cmp x x = false)
    (hnt : ∀ x y z, cmp x y = false → cmp y z = false → cmp x z = false)
    (d : α) (l r : Tree α) (dd : Int)
    (hh : heapOk cmp (Tree.node d l r dd) = true) :
    ∀ x ∈ elems (Tree.node d l r dd), cmp d x = false := by
  intro x hx
  have hh' := hh
  simp only [heapOk, Bool.and_eq_true] at hh'
  simp only [elems, Multiset.mem_add, Multiset.mem_singleton] at hx
  rcases hx with (hx | hx) | hx
  · rw [hx]; exact hirr d
  · exact heap_below cmp hnt l d hh'.1.2 hh'.1.1.1 x hx
  · exact heap_below cmp hnt r d hh'.2 hh'.1.1.2 x hx

theorem popQ_ok_inv {α : Type} {q q' : Queue α} (h : popQ q = (q', none)) :
    ∃ d l r dd, q.root = Tree.node d l r dd ∧ q.curSize ≠ 0 ∧
      q' = { root := mergeNodes q.cmp l r, curSize := q.curSize - 1, cmp := q.cmp } := by
  by_cases h0 : q.curSize = 0
  · simp [popQ, h0] at h
  · cases hr : q.root with
    | nil => simp [popQ, h0, hr] at h
    | node d l r dd =>
      refine ⟨d, l, r, dd, rfl, h0, ?_⟩
      simp only [popQ, if_neg h0, hr] at h
      injection h with h1 h2
      exact h1.symm

theorem reachable_basic {α : Type} (cmp : α → α → Bool) (q : Queue α)
    (hq : Reachable cmp q) :
    q.cmp = cmp ∧ q.curSize = size q.root ∧ leftistOk q.root = true := by
  induction hq with
  | init => exact ⟨rfl, rfl, rfl⟩
  | push e hq ih =>
    refine ⟨ih.1, ?_, ?_⟩
    · simp only [pushQ, size_mergeNodes, size]
      omega
    · exact leftistOk_mergeNodes _ _ _ ih.2.2 (by rfl)
  | pop hq hpop ih =>
    obtain ⟨d, l, r, dd, hr, h0, hq'⟩ := popQ_ok_inv hpop
    subst hq'
    have hs := ih.2.1
    rw [hr] at hs
    have hl := ih.2.2
    rw [hr] at hl
    simp only [leftistOk, Bool.and_eq_true] at hl
    refine ⟨ih.1, ?_, ?_⟩
    · simp only [size_mergeNodes]
      simp only [size] at hs
      omega
    · exact leftistOk_mergeNodes _ _ _ hl.1.2 hl.2
  | mergeL ha hb iha ihb =>
    refine ⟨iha.1, ?_, ?_⟩
    · simp only [mergeQ, size_mergeNodes]
      omega
    · exact leftistOk_mergeNodes _ _ _ iha.2.2 ihb.2.2
  | mergeR ha hb iha ihb => exact ⟨ihb.1, rfl, rfl⟩

theorem reachable_heapOk {α : Type} (cmp : α → α → Bool)
    (hasym : ∀ x y, cmp x y = true → cmp y x = false) (q : Queue α)
    (hq : Reachable cmp q) : heapOk cmp q.root = true := by
  induction hq with
  | init => rfl
  | push e hq ih =>
    have hc := (reachable_basic cmp _ hq).1
    simp only [pushQ, hc]
    exact heapOk_mergeNodes cmp hasym _ _ ih (by rfl)
  | pop hq hpop ih =>
    obtain ⟨d, l, r, dd, hr, h0, hq'⟩ := popQ_ok_inv hpop
    have hc := (reachable_basic cmp _ hq).1
    subst hq'
    rw [hr] at ih
    simp only [heapOk, Bool.and_eq_true] at ih
    simp only [hc]
    exact heapOk_mergeNodes cmp hasym _ _ ih.1.2 ih.2
  | mergeL ha hb iha ihb =>
    have hca := (reachable_basic cmp _ ha).1
    simp only [mergeQ, hca]
    exact heapOk_mergeNodes cmp hasym _ _ iha ihb
  | mergeR ha hb iha ihb => rfl

/-- Claim C2: for distinct queues, a successful a.merge(b) leaves a holding
exactly the multiset union of the two original element multisets, a.curSize
the sum of the original sizes, a's top the comparator-maximum of the two
original tops (when both queues were non-empty), and b empty (size 0, absent
tree); when other is the same object as self the call is a no-op. -/
theorem merge_queues_correct {α : Type} (a b : Queue α) :
    elems (mergeOp a b false).1.root = elems a.root + elems b.root ∧
    (mergeOp a b false).1.curSize = a.curSize + b.curSize ∧
    (mergeOp a b false).2.curSize = 0 ∧
    (mergeOp a b false).2.root = Tree.nil ∧
    (∀ d1 l1 r1 s1 d2 l2 r2 s2,
      a.root = Tree.node d1 l1 r1 s1 → b.root = Tree.node d2 l2 r2 s2 →
      rootData (mergeOp a b false).1.root = some (if a.cmp d1 d2 then d2 else d1)) ∧
    (∀ x y : Queue α, mergeOp x y true = (x, y)) := by
  refine ⟨?_, rfl, rfl, rfl, ?_, ?_⟩
  · simp only [mergeOp, if_neg Bool.false_ne_true, mergeQ]
    exact elems_mergeNodes a.cmp a.root b.root
  · intro d1 l1 r1 s1 d2 l2 r2 s2 ha hb
    simp only [mergeOp, if_neg Bool.false_ne_true, mergeQ]
    rw [ha, hb]
    exact rootData_mergeNodes a.cmp d1 l1 r1 s1 d2 l2 r2 s2
  · intro x y
    simp [mergeOp]

/-- Witness for C2: merging the singleton queues with elements 5 and 9 under
less-than gives the multiset sum and top 9. -/
theorem merge_queues_correct_witness :
    elems (mergeOp { root := Tree.node 5 Tree.nil Tree.nil 0, curSize := 1, cmp := cmpNat }
        { root := Tree.node 9 Tree.nil Tree.nil 0, curSize := 1, cmp := cmpNat } false).1.root =
      elems (Tree.node 5 Tree.nil Tree.nil 0) + elems (Tree.node 9 Tree.nil Tree.nil 0) ∧
    rootData (mergeOp { root := Tree.node 5 Tree.nil Tree.nil 0, curSize := 1, cmp := cmpNat }
        { root := Tree.node 9 Tree.nil Tree.nil 0, curSize := 1, cmp := cmpNat } false).1.root =
      some 9 := by
  obtain ⟨h1, h2, h3, h4, h5, h6⟩ :=
    merge_queues_correct
      { root := Tree.node 5 Tree.nil Tree.nil 0, curSize := 1, cmp := cmpNat }
      { root := Tree.node 9 Tree.nil Tree.nil 0, curSize := 1, cmp := cmpNat }
  refine ⟨h1, ?_⟩
  have h7 := h5 5 Tree.nil Tree.nil 0 9 Tree.nil Tree.nil 0 rfl rfl
  simpa [cmpNat] using h7

/-- Claim C3: in every reachable queue state, no node's child payload is
strictly greater than the node's payload under the comparator, and for a
non-empty queue the root payload (what top() returns) is not strictly less
than any element stored in the queue.  The comparator is assumed to be a
strict weak order, stated here through asymmetry and negative
transitivity. -/
theorem reachable_heap_order {α : Type} (cmp : α → α → Bool)
    (hasym : ∀ x y, cmp x y = true → cmp y x = false)
    (hnt : ∀ x y z, cmp x y = false → cmp y z = false → cmp x z = false)
    (q : Queue α) (hq : Reachable cmp q) :
    heapOk cmp q.root = true ∧
    (∀ d l r dd, q.root = Tree.node d l r dd → ∀ x ∈ elems q.root, cmp d x = false) := by
  have hheap := reachable_heapOk cmp hasym q hq
  refine ⟨hheap, ?_⟩
  intro d l r dd hroot x hx
  have hirr : ∀ y, cmp y y = false := by
    intro y
    cases hy : cmp y y
    · rfl
    · have hcon := hasym y y hy
      rw [hy] at hcon
      exact hcon
  rw [hroot] at hheap hx
  exact heap_root_ge cmp hirr hnt d l r dd hheap x hx

/-- Witness for C3: the queue reached by pushing 5 then 3 under less-than
satisfies the heap property and root dominance. -/
theorem reachable_heap_order_witness :
    heapOk cmpNat (pushQ 3 (pushQ 5 { root := Tree.nil, curSize := 0, cmp := cmpNat })).root = true ∧
    (∀ d l r dd,
      (pushQ 3 (pushQ 5 { root := Tree.nil, curSize := 0, cmp := cmpNat })).root = Tree.node d l r dd →
      ∀ x ∈ elems (pushQ 3 (pushQ 5 { root := Tree.nil, curSize := 0, cmp := cmpNat })).root,
        cmpNat d x = false) := by
  refine reachable_heap_order cmpNat ?_ ?_ _ (Reachable.push 3 (Reachable.push 5 Reachable.init))
  · intro x y h
    simp only [cmpNat, decide_eq_true_eq] at h
    simp only [cmpNat, decide_eq_false_iff_not]
    omega
  · intro x y z h1 h2
    simp only [cmpNat, decide_eq_false_iff_not] at h1 h2
    simp only [cmpNat, decide_eq_false_iff_not]
    omega

/-- Claim C4: every reachable queue state satisfies the leftist structural
invariant: at each node getDist(left) is at least getDist(right) and the
stored dist equals 1 + min of the children's dists, an absent child counting
as -1. -/
theorem reachable_leftist_invariant {α : Type} (cmp : α → α → Bool) (q : Queue α)
    (hq : Reachable cmp q) : leftistOk q.root = true :=
  (reachable_basic cmp q hq).2.2

/-- Witness for C4: the queue reached by pushing 5, 3, 8 under less-than
satisfies the leftist invariant. -/
theorem reachable_leftist_invariant_witness :
    leftistOk (pushQ 8 (pushQ 3 (pushQ 5 { root := Tree.nil, curSize := 0, cmp := cmpNat }))).root
      = true :=
  reachable_leftist_invariant cmpNat _
    (Reachable.push 8 (Reachable.push 3 (Reachable.push 5 Reachable.init)))

/-- Claim C5: on a queue with curSize = 0, top() and pop() raise
container_is_empty; top is const and performs no mutation (it is a pure
function here), and pop rethrows before touching anything, so the returned
state is exactly the argument. -/
theorem empty_queue_errors {α : Type} (q : Queue α) (h : q.curSize = 0) :
    topQ q = Except.error QError.containerIsEmpty ∧
    popQ q = (q, some QError.containerIsEmpty) := by
  constructor
  · simp [topQ, h]
  · simp [popQ, h]

/-- Witness for C5: the freshly constructed queue errors on top and pop. -/
theorem empty_queue_errors_witness :
    topQ { root := Tree.nil, curSize := 0, cmp := cmpNat } =
      Except.error QError.containerIsEmpty ∧
    popQ { root := Tree.nil, curSize := 0, cmp := cmpNat } =
      ({ root := Tree.nil, curSize := 0, cmp := cmpNat }, some QError.containerIsEmpty) :=
  empty_queue_errors { root := Tree.nil, curSize := 0, cmp := cmpNat } rfl

/-- Claim C9: when both operands of mergeNodes are non-empty and the root
payloads are tied (neither less than the other), the first operand's root
survives as the parent; in general the surviving parent is the root whose
payload is not less than the other's. -/
theorem merge_tiebreak {α : Type} (cmp : α → α → Bool)
    (d1 : α) (l1 r1 : Tree α) (s1 : Int) (d2 : α) (l2 r2 : Tree α) (s2 : Int) :
    (cmp d1 d2 = false → cmp d2 d1 = false →
      rootData (mergeNodes cmp (Tree.node d1 l1 r1 s1) (Tree.node d2 l2 r2 s2)) = some d1) ∧
    rootData (mergeNodes cmp (Tree.node d1 l1 r1 s1) (Tree.node d2 l2 r2 s2)) =
      some (if cmp d1 d2 then d2 else d1) := by
  refine ⟨?_, rootData_mergeNodes cmp d1 l1 r1 s1 d2 l2 r2 s2⟩
  intro h1 _
  rw [rootData_mergeNodes cmp d1 l1 r1 s1 d2 l2 r2 s2, if_neg]
  simp [h1]

/-- Witness for C9: with an always-false comparator (every pair tied), the
first operand's root 7 survives. -/
theorem merge_tiebreak_witness :
    rootData (mergeNodes (fun _ _ : Nat => false)
      (Tree.node 7 Tree.nil Tree.nil 0) (Tree.node 4 Tree.nil Tree.nil 0)) = some 7 :=
  (merge_tiebreak (fun _ _ : Nat => false) 7 Tree.nil Tree.nil 0 4 Tree.nil Tree.nil 0).1 rfl rfl

/-- Claim C10: merge orders the combined tree with self's stored comparator
only: the resulting self queue is unchanged when other's comparator is
replaced by anything (other's comparator is never invoked), and both queues
keep their own stored comparator. -/
theorem merge_uses_self_comparator {α : Type} (a b : Queue α) (c : α → α → Bool) :
    (mergeOp a { root := b.root, curSize := b.curSize, cmp := c } false).1 =
      (mergeOp a b false).1 ∧
    (mergeOp a b false).1.cmp = a.cmp ∧
    (mergeOp a b false).2.cmp = b.cmp ∧
    (mergeOp a { root := b.root, curSize := b.curSize, cmp := c } false).2.root =
      (mergeOp a b false).2.root ∧
    (mergeOp a { root := b.root, curSize := b.curSize, cmp := c } false).2.curSize =
      (mergeOp a b false).2.curSize := by
  refine ⟨?_, rfl, rfl, rfl, rfl⟩
  simp [mergeOp, mergeQ]

/-- Claim C1: if an allocation or payload-copy failure (fuel exhaustion) is
injected during push, pop or merge, the failing operation returns the
queue(s) exactly as passed in, size and tree content untouched, and the
error surfaced is the single runtime_error of the catch blocks: push fails
only with runtime_error; pop leaves the queue untouched on every error and,
on a non-empty queue (where the container_is_empty precondition error is
impossible and any failure is an injected allocation/copy failure), the
error surfaced is exactly runtime_error; merge of two distinct queues fails
only with runtime_error leaving both queues untouched. -/
theorem mutator_strong_exception_safety {α : Type} (q a b : Queue α) (e : α) (f : Nat) :
    ((pushF e q f).2.1.isSome = true →
      (pushF e q f).1 = q ∧ (pushF e q f).2.1 = some QError.runtimeError) ∧
    ((popF q f).2.1.isSome = true → (popF q f).1 = q) ∧
    (q.curSize ≠ 0 → (popF q f).2.1.isSome = true →
      (popF q f).2.1 = some QError.runtimeError) ∧
    ((mergeF a b f).2.2.1.isSome = true →
      (mergeF a b f).1 = a ∧ (mergeF a b f).2.1 = b ∧
      (mergeF a b f).2.2.1 = some QError.runtimeError) := by
  refine ⟨?_, ?_, ?_, ?_⟩
  · by_cases h0 : f = 0
    · intro _
      simp [pushF, h0]
    · rcases h1 : mergeNodesF q.cmp q.root (Tree.node e Tree.nil Tree.nil 0) (f - 1) with ⟨o1, f1⟩
      cases o1 with
      | none => intro _; simp [pushF, h0, h1]
      | some t => simp [pushF, h0, h1]
  · by_cases h0 : q.curSize = 0
    · intro _
      simp [popF, h0]
    · cases hr : q.root with
      | nil => intro _; simp [popF, h0, hr]
      | node d l r dd =>
        rcases h1 : copyTreeF l f with ⟨o1, f1⟩
        cases o1 with
        | none => intro _; simp [popF, h0, hr, h1]
        | some l1 =>
          rcases h2 : copyTreeF r f1 with ⟨o2, f2⟩
          cases o2 with
          | none => intro _; simp [popF, h0, hr, h1, h2]
          | some r1 =>
            rcases h3 : mergeNodesF q.cmp l1 r1 f2 with ⟨o3, f3⟩
            cases o3 with
            | none => intro _; simp [popF, h0, hr, h1, h2, h3]
            | some t => simp [popF, h0, hr, h1, h2, h3]
  · intro h0 hs
    cases hr : q.root with
    | nil => simp [popF, h0, hr]
    | node d l r dd =>
      rcases h1 : copyTreeF l f with ⟨o1, f1⟩
      cases o1 with
      | none => simp [popF, h0, hr, h1]
      | some l1 =>
        rcases h2 : copyTreeF r f1 with ⟨o2, f2⟩
        cases o2 with
        | none => simp [popF, h0, hr, h1, h2]
        | some r1 =>
          rcases h3 : mergeNodesF q.cmp l1 r1 f2 with ⟨o3, f3⟩
          cases o3 with
          | none => simp [popF, h0, hr, h1, h2, h3]
          | some t => simp [popF, h0, hr, h1, h2, h3] at hs
  · rcases h1 : copyTreeF a.root f with ⟨o1, f1⟩
    cases o1 with
    | none => intro _; simp [mergeF, h1]
    | some c1 =>
      rcases h2 : copyTreeF b.root f1 with ⟨o2, f2⟩
      cases o2 with
      | none => intro _; simp [mergeF, h1, h2]
      | some c2 =>
        rcases h3 : mergeNodesF a.cmp c1 c2 f2 with ⟨o3, f3⟩
        cases o3 with
        | none => intro _; simp [mergeF, h1, h2, h3]
        | some t => simp [mergeF, h1, h2, h3]

/-- Witness for C1: with fuel 0, push on a singleton queue and pop and merge
on a two-element queue all fail and return the queues unchanged, and the
pop and merge failures surface exactly runtime_error. -/
theorem mutator_strong_exception_safety_witness :
    (pushF 3 { root := Tree.node 5 Tree.nil Tree.nil 0, curSize := 1, cmp := cmpNat } 0).1 =
      { root := Tree.node 5 Tree.nil Tree.nil 0, curSize := 1, cmp := cmpNat } ∧
    (popF { root := Tree.node 9 (Tree.node 5 Tree.nil Tree.nil 0) Tree.nil 0,
            curSize := 2, cmp := cmpNat } 0).1 =
      { root := Tree.node 9 (Tree.node 5 Tree.nil Tree.nil 0) Tree.nil 0,
        curSize := 2, cmp := cmpNat } ∧
    (popF { root := Tree.node 9 (Tree.node 5 Tree.nil Tree.nil 0) Tree.nil 0,
            curSize := 2, cmp := cmpNat } 0).2.1 = some QError.runtimeError ∧
    (mergeF { root := Tree.node 9 (Tree.node 5 Tree.nil Tree.nil 0) Tree.nil 0,
              curSize := 2, cmp := cmpNat }
      { root := Tree.node 7 Tree.nil Tree.nil 0, curSize := 1, cmp := cmpNat } 0).2.1 =
      { root := Tree.node 7 Tree.nil Tree.nil 0, curSize := 1, cmp := cmpNat } := by
  refine ⟨?_, ?_, ?_, ?_⟩
  · exact ((mutator_strong_exception_safety
      { root := Tree.node 5 Tree.nil Tree.nil 0, curSize := 1, cmp := cmpNat }
      { root := Tree.node 5 Tree.nil Tree.nil 0, curSize := 1, cmp := cmpNat }
      { root := Tree.node 7 Tree.nil Tree.nil 0, curSize := 1, cmp := cmpNat }
      (3 : Nat) 0).1 (by rfl)).1
  · exact (mutator_strong_exception_safety
      { root := Tree.node 9 (Tree.node 5 Tree.nil Tree.nil 0) Tree.nil 0,
        curSize := 2, cmp := cmpNat }
      { root := Tree.node 9 (Tree.node 5 Tree.nil Tree.nil 0) Tree.nil 0,
        curSize := 2, cmp := cmpNat }
      { root := Tree.node 7 Tree.nil Tree.nil 0, curSize := 1, cmp := cmpNat }
      (3 : Nat) 0).2.1 (by rfl)
  · exact (mutator_strong_exception_safety
      { root := Tree.node 9 (Tree.node 5 Tree.nil Tree.nil 0) Tree.nil 0,
        curSize := 2, cmp := cmpNat }
      { root := Tree.node 9 (Tree.node 5 Tree.nil Tree.nil 0) Tree.nil 0,
        curSize := 2, cmp := cmpNat }
      { root := Tree.node 7 Tree.nil Tree.nil 0, curSize := 1, cmp := cmpNat }
      (3 : Nat) 0).2.2.1 (by decide) (by rfl)
  · exact ((mutator_strong_exception_safety
      { root := Tree.node 9 (Tree.node 5 Tree.nil Tree.nil 0) Tree.nil 0,
        curSize := 2, cmp := cmpNat }
      { root := Tree.node 9 (Tree.node 5 Tree.nil Tree.nil 0) Tree.nil 0,
        curSize := 2, cmp := cmpNat }
      { root := Tree.node 7 Tree.nil Tree.nil 0, curSize := 1, cmp := cmpNat }
      (3 : Nat) 0).2.2.2 (by rfl)).2.1

theorem allocCell_ok {α : Type} {st : St α} {c : Cell α} {q : Nat} {st' : St α}
    (h : allocCell st c = some (q, st')) :
    q = st.mem.length ∧ st'.mem = st.mem ++ [some c] ∧ st'.fuel = fuelSub st.fuel 1 := by
  unfold allocCell at h
  cases hf : st.fuel with
  | none =>
    rw [hf] at h
    injection h with h'
    injection h' with hq hst
    exact ⟨hq.symm, by rw [← hst], by rw [← hst]; simp [fuelSub]⟩
  | some k =>
    cases k with
    | zero => rw [hf] at h; exact absurd h (by simp)
    | succ k =>
      rw [hf] at h
      injection h with h'
      injection h' with hq hst
      exact ⟨hq.symm, by rw [← hst], by rw [← hst]; simp [fuelSub]⟩

theorem allocCell_none_fuel {α : Type} {st : St α} {c : Cell α}
    (h : allocCell st c = none) : st.fuel = some 0 := by
  unfold allocCell at h
  cases hf : st.fuel with
  | none => rw [hf] at h; exact absurd h (by simp)
  | some k =>
    cases k with
    | zero => rfl
    | succ k => rw [hf] at h; exact absurd h (by simp)

theorem framePres_refl {α : Type} (st : St α) : framePres st st :=
  ⟨le_refl _, fun _ _ => rfl⟩

theorem framePres_trans {α : Type} {s1 s2 s3 : St α}
    (h1 : framePres s1 s2) (h2 : framePres s2 s3) : framePres s1 s3 := by
  refine ⟨le_trans h1.1 h2.1, fun i hi => ?_⟩
  rw [h2.2 i (lt_of_lt_of_le hi h1.1), h1.2 i hi]

theorem framePres_allocCell {α : Type} {st : St α} {c : Cell α} {q : Nat} {st' : St α}
    (h : allocCell st c = some (q, st')) : framePres st st' := by
  obtain ⟨-, hmem, -⟩ := allocCell_ok h
  refine ⟨by rw [hmem]; simp, fun i hi => ?_⟩
  rw [hmem, List.getElem?_append]
  simp [hi]

theorem framePres_writeCell {α : Type} {st0 st : St α} {p : Nat} {c : Cell α}
    (h : framePres st0 st) (hp : st0.mem.length ≤ p) : framePres st0 (writeCell st p c) := by
  refine ⟨?_, fun i hi => ?_⟩
  · simpa [writeCell] using h.1
  · have hne : p ≠ i := by omega
    simp only [writeCell]
    rw [List.getElem?_set_ne hne]
    exact h.2 i hi

theorem framePres_freeCell {α : Type} {st0 st : St α} {p : Nat}
    (h : framePres st0 st) (hp : st0.mem.length ≤ p) : framePres st0 (freeCell st p) := by
  refine ⟨?_, fun i hi => ?_⟩
  · simpa [freeCell] using h.1
  · have hne : p ≠ i := by omega
    simp only [freeCell]
    rw [List.getElem?_set_ne hne]
    exact h.2 i hi

theorem copyTreeM_frame {α : Type} :
    ∀ (g : Nat) (a : Option Nat) (st : St α), framePres st (copyTreeM g a st).2 := by
  intro g
  induction g with
  | zero => intro a st; exact framePres_refl st
  | succ g ih =>
    intro a st
    cases a with
    | none => exact framePres_refl st
    | some p =>
      cases hc : readCell st p with
      | none => simp only [copyTreeM, hc]; exact framePres_refl st
      | some c =>
        cases ha : allocCell st { data := c.data, left := none, right := none, dist := 0 } with
        | none => simp only [copyTreeM, hc, ha]; exact framePres_refl st
        | some qs =>
          obtain ⟨q, st1⟩ := qs
          have hq : q = st.mem.length := (allocCell_ok ha).1
          have hf1 : framePres st st1 := framePres_allocCell ha
          rcases h2 : copyTreeM g c.left st1 with ⟨e2, st2⟩
          have hf2 : framePres st st2 := by
            have := ih c.left st1
            rw [h2] at this
            exact framePres_trans hf1 this
          cases e2 with
          | error e =>
            simp only [copyTreeM, hc, ha, h2]
            exact framePres_freeCell hf2 (le_of_eq hq.symm)
          | ok l1 =>
            have hf3 : framePres st (writeCell st2 q { data := c.data, left := l1, right := none, dist := 0 }) :=
              framePres_writeCell hf2 (le_of_eq hq.symm)
            rcases h4 : copyTreeM g c.right
                (writeCell st2 q { data := c.data, left := l1, right := none, dist := 0 }) with ⟨e4, st4⟩
            have hf4 : framePres st st4 := by
              have := ih c.right (writeCell st2 q { data := c.data, left := l1, right := none, dist := 0 })
              rw [h4] at this
              exact framePres_trans hf3 this
            cases e4 with
            | error e =>
              simp only [copyTreeM, hc, ha, h2, h4]
              exact framePres_freeCell hf4 (le_of_eq hq.symm)
            | ok r1 =>
              simp only [copyTreeM, hc, ha, h2, h4]
              exact framePres_writeCell hf4 (le_of_eq hq.symm)

theorem mergeNodesM_frame {α : Type} (cmp : α → α → Bool) :
    ∀ (g : Nat) (h1 h2 : Option Nat) (st : St α), framePres st (mergeNodesM cmp g h1 h2 st).2 := by
  intro g
  induction g with
  | zero => intro h1 h2 st; exact framePres_refl st
  | succ g ih =>
    intro h1 h2 st
    cases h1 with
    | none => simp only [mergeNodesM]; exact copyTreeM_frame g h2 st
    | some p1 =>
      cases h2 with
      | none => simp only [mergeNodesM]; exact copyTreeM_frame g (some p1) st
      | some p2 =>
        cases hc1 : readCell st p1 with
        | none => simp only [mergeNodesM, hc1]; exact framePres_refl st
        | some c1 =>
          cases hc2 : readCell st p2 with
          | none => simp only [mergeNodesM, hc1, hc2]; exact framePres_refl st
          | some c2 =>
            set ca := if cmp c1.data c2.data then c2 else c1 with hca
            set pb := if cmp c1.data c2.data then p1 else p2 with hpb
            cases ha : allocCell st { data := ca.data, left := none, right := none, dist := 0 } with
            | none => simp only [mergeNodesM, hc1, hc2, ← hca, ← hpb, ha]; exact framePres_refl st
            | some qs =>
              obtain ⟨q, st1⟩ := qs
              have hq : q = st.mem.length := (allocCell_ok ha).1
              have hf1 : framePres st st1 := framePres_allocCell ha
              rcases h2' : mergeNodesM cmp g ca.right (some pb) st1 with ⟨e2, st2⟩
              have hf2 : framePres st st2 := by
                have := ih ca.right (some pb) st1
                rw [h2'] at this
                exact framePres_trans hf1 this
              cases e2 with
              | error e =>
                simp only [mergeNodesM, hc1, hc2, ← hca, ← hpb, ha, h2']
                exact framePres_freeCell hf2 (le_of_eq hq.symm)
              | ok mr =>
                rcases h3 : copyTreeM g ca.left st2 with ⟨e3, st3⟩
                have hf3 : framePres st st3 := by
                  have := copyTreeM_frame g ca.left st2
                  rw [h3] at this
                  exact framePres_trans hf2 this
                cases e3 with
                | error e =>
                  simp only [mergeNodesM, hc1, hc2, ← hca, ← hpb, ha, h2', h3]
                  exact framePres_freeCell hf3 (le_of_eq hq.symm)
                | ok cl =>
                  simp only [mergeNodesM, hc1, hc2, ← hca, ← hpb, ha, h2', h3]
                  exact framePres_writeCell hf3 (le_of_eq hq.symm)

theorem getElem_set_eq_of_lt {β : Type} (l : List β) (i : Nat) (v : β) (h : i < l.length) :
    (l.set i v)[i]? = some v := by
  rw [List.getElem?_set_self]
  simp [h]

theorem readCell_of_mem {α : Type} {st : St α} {p : Nat} {c : Cell α}
    (h : st.mem[p]? = some (some c)) : readCell st p = some c := by
  simp [readCell, h]

theorem fuelSub_zero (f : Option Nat) : fuelSub f 0 = f := by
  cases f <;> simp [fuelSub]

theorem fuelSub_fuelSub (f : Option Nat) (m n : Nat) :
    fuelSub (fuelSub f m) n = fuelSub f (m + n) := by
  cases f <;> simp [fuelSub]
  omega

theorem fuelGe_mono {f : Option Nat} {m n : Nat} (h : fuelGe f m) (hle : n ≤ m) :
    fuelGe f n := by
  intro k hk
  exact le_trans hle (h k hk)

theorem fuelGe_fuelSub {f : Option Nat} {m n : Nat} (h : fuelGe f (m + n)) :
    fuelGe (fuelSub f m) n := by
  intro k hk
  cases f with
  | none => simp [fuelSub] at hk
  | some j =>
    simp [fuelSub] at hk
    have := h j rfl
    omega

theorem allocCell_some_of_fuelGe {α : Type} {st : St α} (c : Cell α)
    (h : fuelGe st.fuel 1) :
    allocCell st c = some (st.mem.length,
      { mem := st.mem ++ [some c], fuel := fuelSub st.fuel 1 }) := by
  cases hf : st.fuel with
  | none => simp [allocCell, hf, fuelSub]
  | some k =>
    cases k with
    | zero => have := h 0 hf; omega
    | succ k => simp [allocCell, hf, fuelSub]

theorem rep_frame {α : Type} :
    ∀ (t : Tree α) (mem mem' : List (Option (Cell α))) (a : Option Nat) (L : List Nat),
      rep mem a t L → (∀ i ∈ L, mem'[i]? = mem[i]?) → rep mem' a t L := by
  intro t
  induction t with
  | nil =>
    intro mem mem' a L h hag
    cases a with
    | none => exact h
    | some p => exact h.elim
  | node d l r dd ihl ihr =>
    intro mem mem' a L h hag
    cases a with
    | none => exact h.elim
    | some p =>
      simp only [rep] at h ⊢
      obtain ⟨c, Ll, Lr, hp, hd, hdd, hL, hl, hr⟩ := h
      subst hL
      refine ⟨c, Ll, Lr, ?_, hd, hdd, rfl, ?_, ?_⟩
      · rw [hag p (by simp)]
        exact hp
      · exact ihl mem mem' c.left Ll hl (fun i hi => hag i (by simp [hi]))
      · exact ihr mem mem' c.right Lr hr (fun i hi => hag i (by simp [hi]))

theorem rep_lt {α : Type} :
    ∀ (t : Tree α) (mem : List (Option (Cell α))) (a : Option Nat) (L : List Nat),
      rep mem a t L → ∀ i ∈ L, i < mem.length := by
  intro t
  induction t with
  | nil =>
    intro mem a L h i hi
    cases a with
    | none => subst h; simp at hi
    | some p => exact h.elim
  | node d l r dd ihl ihr =>
    intro mem a L h i hi
    cases a with
    | none => exact h.elim
    | some p =>
      simp only [rep] at h
      obtain ⟨c, Ll, Lr, hp, hd, hdd, hL, hl, hr⟩ := h
      subst hL
      simp only [List.mem_cons, List.mem_append] at hi
      rcases hi with hi | hi | hi
      · subst hi
        exact (List.getElem?_eq_some.mp hp).1
      · exact ihl mem c.left Ll hl i hi
      · exact ihr mem c.right Lr hr i hi

theorem rep_length {α : Type} :
    ∀ (t : Tree α) (mem : List (Option (Cell α))) (a : Option Nat) (L : List Nat),
      rep mem a t L → L.length = size t := by
  intro t
  induction t with
  | nil =>
    intro mem a L h
    cases a with
    | none => subst h; rfl
    | some p => exact h.elim
  | node d l r dd ihl ihr =>
    intro mem a L h
    cases a with
    | none => exact h.elim
    | some p =>
      simp only [rep] at h
      obtain ⟨c, Ll, Lr, hp, hd, hdd, hL, hl, hr⟩ := h
      subst hL
      simp only [List.length_cons, List.length_append, size,
        ihl mem c.left Ll hl, ihr mem c.right Lr hr]
      omega

theorem nodup_lt_length_le {L : List Nat} {n : Nat} (hd : L.Nodup)
    (hlt : ∀ i ∈ L, i < n) : L.length ≤ n := by
  classical
  have hsub : L.toFinset ⊆ Finset.range n := by
    intro x hx
    simp only [Finset.mem_range]
    exact hlt x (List.mem_toFinset.mp hx)
  have hcard := Finset.card_le_card hsub
  rw [List.toFinset_card_of_nodup hd] at hcard
  simpa using hcard

theorem copyTreeM_ok {α : Type} :
    ∀ (t : Tree α) (g : Nat) (a : Option Nat) (st : St α) (L : List Nat),
      rep st.mem a t L → size t < g → fuelGe st.fuel (size t) →
      ∃ r L' st',
        copyTreeM g a st = (Except.ok r, st') ∧
        rep st'.mem r t L' ∧
        st'.mem.length = st.mem.length + size t ∧
        st'.fuel = fuelSub st.fuel (size t) ∧
        (∀ i ∈ L', st.mem.length ≤ i ∧ i < st'.mem.length) ∧
        L'.Nodup := by
  intro t
  induction t with
  | nil =>
    intro g a st L h hg hf
    cases a with
    | some p => exact h.elim
    | none =>
      cases g with
      | zero => simp [size] at hg
      | succ g =>
        refine ⟨none, [], st, rfl, rfl, by simp [size], (fuelSub_zero st.fuel).symm,
          by simp, List.nodup_nil⟩
  | node d tl tr dd ihl ihr =>
    intro g a st L h hg hf
    cases a with
    | none => exact h.elim
    | some p =>
      cases g with
      | zero => simp [size] at hg
      | succ g =>
        simp only [rep] at h
        obtain ⟨c, Ll, Lr, hp, hd, hdd, hL, hl, hr⟩ := h
        have hszl : size tl < g := by simp [size] at hg; omega
        have hszr : size tr < g := by simp [size] at hg; omega
        have hrc := readCell_of_mem hp
        rcases ha : allocCell st { data := c.data, left := none, right := none, dist := 0 } with
          _ | ⟨q, st1⟩
        · have hzero := allocCell_none_fuel ha
          have := hf 0 hzero
          simp [size] at this
        obtain ⟨hq, hmem1, hfuel1⟩ := allocCell_ok ha
        have hlen1 : st1.mem.length = st.mem.length + 1 := by rw [hmem1]; simp
        have hl1 : rep st1.mem c.left tl Ll := by
          refine rep_frame tl st.mem st1.mem c.left Ll hl ?_
          intro i hi
          have hilt := rep_lt tl st.mem c.left Ll hl i hi
          rw [hmem1, List.getElem?_append]
          simp [hilt]
        have hfl : fuelGe st1.fuel (size tl) := by
          rw [hfuel1]
          exact fuelGe_fuelSub (fuelGe_mono hf (by simp only [size]; omega))
        obtain ⟨l1, Ll', st2, heql, hrepl, hlen2, hfuel2, hfreshl, hndl⟩ :=
          ihl g c.left st1 Ll hl1 hszl hfl
        have hlen2' : st2.mem.length = st.mem.length + 1 + size tl := by
          rw [hlen2, hlen1]
        have hfuel2' : st2.fuel = fuelSub st.fuel (1 + size tl) := by
          rw [hfuel2, hfuel1, fuelSub_fuelSub]
        have hfreshl' : ∀ i ∈ Ll', st.mem.length + 1 ≤ i ∧ i < st.mem.length + 1 + size tl := by
          intro i hi
          have hfr := hfreshl i hi
          omega
        have hfp2 : framePres st1 st2 := by
          have hfp := copyTreeM_frame g c.left st1
          rw [heql] at hfp
          exact hfp
        have hrepl3 : rep (writeCell st2 q
            { data := c.data, left := l1, right := none, dist := 0 }).mem l1 tl Ll' := by
          refine rep_frame tl st2.mem _ l1 Ll' hrepl ?_
          intro i hi
          have hge := hfreshl' i hi
          have hne : q ≠ i := by omega
          simp only [writeCell]
          rw [List.getElem?_set_ne hne]
        have hr3 : rep (writeCell st2 q
            { data := c.data, left := l1, right := none, dist := 0 }).mem c.right tr Lr := by
          refine rep_frame tr st.mem _ c.right Lr hr ?_
          intro i hi
          have hilt := rep_lt tr st.mem c.right Lr hr i hi
          have hne : q ≠ i := by omega
          simp only [writeCell]
          rw [List.getElem?_set_ne hne]
          rw [hfp2.2 i (by omega)]
          rw [hmem1, List.getElem?_append]
          simp [hilt]
        have hlen3 : (writeCell st2 q
            { data := c.data, left := l1, right := none, dist := 0 }).mem.length =
            st.mem.length + 1 + size tl := by
          simp [writeCell, hlen2']
        have hfuel3 : (writeCell st2 q
            { data := c.data, left := l1, right := none, dist := 0 }).fuel =
            fuelSub st.fuel (1 + size tl) := by
          simp only [writeCell]
          exact hfuel2'
        have hfr3 : fuelGe (writeCell st2 q
            { data := c.data, left := l1, right := none, dist := 0 }).fuel (size tr) := by
          rw [hfuel3]
          exact fuelGe_fuelSub (fuelGe_mono hf (by simp only [size]; omega))
        obtain ⟨r1, Lr', st4, heqr, hrepr, hlen4, hfuel4, hfreshr, hndr⟩ :=
          ihr g c.right
            (writeCell st2 q { data := c.data, left := l1, right := none, dist := 0 })
            Lr hr3 hszr hfr3
        have hlen4' : st4.mem.length = st.mem.length + 1 + size tl + size tr := by
          rw [hlen4, hlen3]
        have hfuel4' : st4.fuel = fuelSub st.fuel (1 + size tl + size tr) := by
          rw [hfuel4, hfuel3, fuelSub_fuelSub]
        have hfreshr' : ∀ i ∈ Lr', st.mem.length + 1 + size tl ≤ i ∧
            i < st.mem.length + 1 + size tl + size tr := by
          intro i hi
          have hfr := hfreshr i hi
          rw [hlen3] at hfr
          rw [hlen4'] at hfr
          omega
        have hfp4 : framePres
            (writeCell st2 q { data := c.data, left := l1, right := none, dist := 0 })
            st4 := by
          have hfp := copyTreeM_frame g c.right
            (writeCell st2 q { data := c.data, left := l1, right := none, dist := 0 })
          rw [heqr] at hfp
          exact hfp
        refine ⟨some q, q :: (Ll' ++ Lr'),
          writeCell st4 q { data := c.data, left := l1, right := r1, dist := c.dist },
          ?_, ?_, ?_, ?_, ?_, ?_⟩
        · simp only [copyTreeM, hrc, ha, heql, heqr]
        · simp only [rep]
          refine ⟨{ data := c.data, left := l1, right := r1, dist := c.dist }, Ll', Lr',
            ?_, hd, hdd, rfl, ?_, ?_⟩
          · simp only [writeCell]
            exact getElem_set_eq_of_lt _ _ _ (by omega)
          · refine rep_frame tl st4.mem _ l1 Ll' ?_ ?_
            · refine rep_frame tl _ st4.mem l1 Ll' hrepl3 ?_
              intro i hi
              have hfr := hfreshl' i hi
              exact hfp4.2 i (by rw [hlen3]; omega)
            · intro i hi
              have hfr := hfreshl' i hi
              have hne : q ≠ i := by omega
              simp only [writeCell]
              rw [List.getElem?_set_ne hne]
          · refine rep_frame tr st4.mem _ r1 Lr' hrepr ?_
            intro i hi
            have hfr := hfreshr' i hi
            have hne : q ≠ i := by omega
            simp only [writeCell]
            rw [List.getElem?_set_ne hne]
        · simp only [writeCell, List.length_set]
          rw [hlen4']
          simp only [size]
          omega
        · simp only [writeCell]
          rw [hfuel4']
          rfl
        · intro i hi
          simp only [List.mem_cons, List.mem_append] at hi
          simp only [writeCell, List.length_set, hlen4']
          rcases hi with hi | hi | hi
          · subst hi
            refine ⟨by omega, by omega⟩
          · have hfr := hfreshl' i hi
            refine ⟨by omega, by omega⟩
          · have hfr := hfreshr' i hi
            refine ⟨by omega, by omega⟩
        · refine List.Nodup.cons ?_ (List.Nodup.append hndl hndr ?_)
          · intro hmem
            simp only [List.mem_append] at hmem
            rcases hmem with hmem | hmem
            · have hfr := hfreshl' _ hmem
              omega
            · have hfr := hfreshr' _ hmem
              omega
          · intro x hx hy
            have h1 := hfreshl' x hx
            have h2 := hfreshr' x hy
            omega

theorem rep_getDistM {α : Type} {st : St α} {a : Option Nat} {t : Tree α} {L : List Nat}
    (h : rep st.mem a t L) : getDistM st a = getDist t := by
  cases a with
  | none =>
    cases t with
    | nil => rfl
    | node d l r dd => exact h.elim
  | some p =>
    cases t with
    | nil => exact h.elim
    | node d l r dd =>
      simp only [rep] at h
      obtain ⟨c, Ll, Lr, hp, hd, hdd, hL, hl, hr⟩ := h
      simp only [getDistM, readCell_of_mem hp, getDist]
      exact hdd

theorem rep_writeCell_unrelated {α : Type} {st : St α} {a : Option Nat} {t : Tree α}
    {L : List Nat} {q : Nat} {c : Cell α}
    (h : rep st.mem a t L) (hq : q ∉ L) : rep (writeCell st q c).mem a t L := by
  refine rep_frame t st.mem _ a L h ?_
  intro i hi
  have hne : q ≠ i := fun he => hq (he ▸ hi)
  simp only [writeCell]
  rw [List.getElem?_set_ne hne]

theorem rep_mkNode_write {α : Type} (st3 : St α) (q : Nat) (dta : α) (tC tM : Tree α)
    (cl mr : Option Nat) (LC LM : List Nat)
    (hrepc : rep st3.mem cl tC LC) (hrepm : rep st3.mem mr tM LM)
    (hqlt : q < st3.mem.length) (hqC : q ∉ LC) (hqM : q ∉ LM) :
    rep (writeCell st3 q
        { data := dta,
          left := if getDistM st3 cl < getDistM st3 mr then mr else cl,
          right := if getDistM st3 cl < getDistM st3 mr then cl else mr,
          dist := getDistM st3 (if getDistM st3 cl < getDistM st3 mr then cl else mr) + 1 }).mem
      (some q) (mkNode dta tC tM)
      (q :: (if getDistM st3 cl < getDistM st3 mr then LM ++ LC else LC ++ LM)) := by
  have hdc := rep_getDistM hrepc
  have hdm := rep_getDistM hrepm
  by_cases hlt : getDistM st3 cl < getDistM st3 mr
  · simp only [if_pos hlt]
    have hlt' : getDist tC < getDist tM := by rw [← hdc, ← hdm]; exact hlt
    unfold mkNode
    rw [if_pos hlt']
    simp only [rep]
    refine ⟨{ data := dta, left := mr, right := cl, dist := getDistM st3 cl + 1 },
      LM, LC, ?_, rfl, by rw [hdc], rfl, ?_, ?_⟩
    · simp only [writeCell]
      exact getElem_set_eq_of_lt _ _ _ hqlt
    · exact rep_writeCell_unrelated hrepm hqM
    · exact rep_writeCell_unrelated hrepc hqC
  · simp only [if_neg hlt]
    have hlt' : ¬(getDist tC < getDist tM) := by rw [← hdc, ← hdm]; exact hlt
    unfold mkNode
    rw [if_neg hlt']
    simp only [rep]
    refine ⟨{ data := dta, left := cl, right := mr, dist := getDistM st3 mr + 1 },
      LC, LM, ?_, rfl, by rw [hdm], rfl, ?_, ?_⟩
    · simp only [writeCell]
      exact getElem_set_eq_of_lt _ _ _ hqlt
    · exact rep_writeCell_unrelated hrepc hqC
    · exact rep_writeCell_unrelated hrepm hqM

theorem mergeNodesM_ok {α : Type} (cmp : α → α → Bool) :
    ∀ (g : Nat) (t1 t2 : Tree α) (h1 h2 : Option Nat) (st : St α) (L1 L2 : List Nat),
      rep st.mem h1 t1 L1 → rep st.mem h2 t2 L2 →
      size t1 + size t2 + 1 < g → fuelGe st.fuel (size t1 + size t2) →
      ∃ r L' st',
        mergeNodesM cmp g h1 h2 st = (Except.ok r, st') ∧
        rep st'.mem r (mergeNodes cmp t1 t2) L' ∧
        st'.mem.length = st.mem.length + (size t1 + size t2) ∧
        st'.fuel = fuelSub st.fuel (size t1 + size t2) ∧
        (∀ i ∈ L', st.mem.length ≤ i ∧ i < st'.mem.length) ∧
        L'.Nodup := by
  intro g
  induction g with
  | zero => intro t1 t2 h1 h2 st L1 L2 hr1 hr2 hg hf; omega
  | succ g ih =>
    intro t1 t2 h1 h2 st L1 L2 hr1 hr2 hg hf
    cases t1 with
    | nil =>
      cases h1 with
      | some p => exact hr1.elim
      | none =>
        obtain ⟨r, L', st', heq, hrep, hlen, hfu, hfresh, hnd⟩ :=
          copyTreeM_ok t2 g h2 st L2 hr2 (by simp only [size] at hg; omega)
            (fuelGe_mono hf (by simp only [size]; omega))
        refine ⟨r, L', st', ?_, ?_, ?_, ?_, hfresh, hnd⟩
        · simp only [mergeNodesM]
          exact heq
        · simp only [mergeNodes]
          exact hrep
        · rw [hlen]
          simp only [size]
          omega
        · rw [hfu]
          congr 1
          simp only [size]
          omega
    | node d1 tl1 tr1 s1 =>
      cases h1 with
      | none => exact hr1.elim
      | some p1 =>
        cases t2 with
        | nil =>
          cases h2 with
          | some p => exact hr2.elim
          | none =>
            obtain ⟨r, L', st', heq, hrep, hlen, hfu, hfresh, hnd⟩ :=
              copyTreeM_ok (Tree.node d1 tl1 tr1 s1) g (some p1) st L1 hr1
                (by simp only [size] at hg ⊢; omega)
                (fuelGe_mono hf (by simp only [size]; omega))
            refine ⟨r, L', st', ?_, ?_, ?_, ?_, hfresh, hnd⟩
            · simp only [mergeNodesM]
              exact heq
            · simp only [mergeNodes]
              exact hrep
            · rw [hlen]
              simp only [size]
              omega
            · rw [hfu]
              congr 1
        | node d2 tl2 tr2 s2 =>
          cases h2 with
          | none => exact hr2.elim
          | some p2 =>
            have hr1' := hr1
            simp only [rep] at hr1'
            obtain ⟨c1, Ll1, Lr1, hp1, hd1, hdd1, hL1, hl1, hrr1⟩ := hr1'
            have hr2' := hr2
            simp only [rep] at hr2'
            obtain ⟨c2, Ll2, Lr2, hp2, hd2, hdd2, hL2, hl2, hrr2⟩ := hr2'
            have hrc1 := readCell_of_mem hp1
            have hrc2 := readCell_of_mem hp2
            have hsz1 : size (Tree.node d1 tl1 tr1 s1) = 1 + size tl1 + size tr1 := rfl
            have hsz2 : size (Tree.node d2 tl2 tr2 s2) = 1 + size tl2 + size tr2 := rfl
            by_cases hcmp : cmp c1.data c2.data = true
            · -- the second operand's root survives; demoted tree is the first operand
              rcases ha : allocCell st { data := c2.data, left := none, right := none, dist := 0 }
                with _ | ⟨q, st1⟩
              · have hzero := allocCell_none_fuel ha
                have := hf 0 hzero
                omega
              obtain ⟨hq, hmem1, hfuel1⟩ := allocCell_ok ha
              have hlen1 : st1.mem.length = st.mem.length + 1 := by rw [hmem1]; simp
              have htr : ∀ (t : Tree α) (a : Option Nat) (L : List Nat), rep st.mem a t L →
                  rep st1.mem a t L := by
                intro t a L h
                refine rep_frame t st.mem st1.mem a L h ?_
                intro i hi
                have hilt := rep_lt t st.mem a L h i hi
                rw [hmem1, List.getElem?_append]
                simp [hilt]
              obtain ⟨mr, Lm, st2, heqm, hrepm, hlen2, hfuel2, hfreshm, hndm⟩ :=
                ih tr2 (Tree.node d1 tl1 tr1 s1) c2.right (some p1) st1 Lr2 L1
                  (htr tr2 c2.right Lr2 hrr2) (htr (Tree.node d1 tl1 tr1 s1) (some p1) L1 hr1)
                  (by omega) (by rw [hfuel1]; exact fuelGe_fuelSub (fuelGe_mono hf (by omega)))
              have hlen2' : st2.mem.length = st.mem.length + 1 +
                  (size tr2 + size (Tree.node d1 tl1 tr1 s1)) := by rw [hlen2, hlen1]
              have hfuel2' : st2.fuel =
                  fuelSub st.fuel (1 + (size tr2 + size (Tree.node d1 tl1 tr1 s1))) := by
                rw [hfuel2, hfuel1, fuelSub_fuelSub]
              have hfreshm' : ∀ i ∈ Lm, st.mem.length + 1 ≤ i ∧ i < st2.mem.length := by
                intro i hi
                have hx := hfreshm i hi
                omega
              have hfpm : framePres st1 st2 := by
                have hfp := mergeNodesM_frame cmp g c2.right (some p1) st1
                rw [heqm] at hfp
                exact hfp
              have hl2' : rep st2.mem c2.left tl2 Ll2 := by
                refine rep_frame tl2 st.mem st2.mem c2.left Ll2 hl2 ?_
                intro i hi
                have hilt := rep_lt tl2 st.mem c2.left Ll2 hl2 i hi
                rw [hfpm.2 i (by omega)]
                rw [hmem1, List.getElem?_append]
                simp [hilt]
              obtain ⟨cl, Lcl, st3, heqc, hrepc, hlen3, hfuel3, hfreshc, hndc⟩ :=
                copyTreeM_ok tl2 g c2.left st2 Ll2 hl2' (by omega)
                  (by rw [hfuel2']
                      exact fuelGe_fuelSub (fuelGe_mono hf (by omega)))
              have hlen3' : st3.mem.length = st2.mem.length + size tl2 := hlen3
              have hfreshc' : ∀ i ∈ Lcl, st2.mem.length ≤ i ∧ i < st3.mem.length := hfreshc
              have hfpc : framePres st2 st3 := by
                have hfp := copyTreeM_frame g c2.left st2
                rw [heqc] at hfp
                exact hfp
              have hrepm3 : rep st3.mem mr (mergeNodes cmp tr2 (Tree.node d1 tl1 tr1 s1)) Lm := by
                refine rep_frame _ st2.mem st3.mem mr Lm hrepm ?_
                intro i hi
                have hx := hfreshm i hi
                exact hfpc.2 i (by omega)
              have hcombine := rep_mkNode_write st3 q c2.data tl2
                (mergeNodes cmp tr2 (Tree.node d1 tl1 tr1 s1)) cl mr Lcl Lm hrepc hrepm3
                (by omega)
                (fun hmem => by have := hfreshc' q hmem; omega)
                (fun hmem => by have := hfreshm' q hmem; omega)
              refine ⟨some q,
                q :: (if getDistM st3 cl < getDistM st3 mr then Lm ++ Lcl else Lcl ++ Lm),
                writeCell st3 q
                  { data := c2.data,
                    left := if getDistM st3 cl < getDistM st3 mr then mr else cl,
                    right := if getDistM st3 cl < getDistM st3 mr then cl else mr,
                    dist := getDistM st3 (if getDistM st3 cl < getDistM st3 mr then cl else mr) + 1 },
                ?_, ?_, ?_, ?_, ?_, ?_⟩
              · simp only [mergeNodesM, hrc1, hrc2, if_pos hcmp, ha, heqm, heqc]
              · have hvc : cmp d1 d2 = true := by rw [← hd1, ← hd2]; exact hcmp
                rw [mergeNodes, if_pos hvc]
                rw [← hd2]
                exact hcombine
              · simp only [writeCell, List.length_set]
                omega
              · simp only [writeCell]
                rw [hfuel3, hfuel2', fuelSub_fuelSub]
                congr 1
                omega
              · intro i hi
                simp only [writeCell, List.length_set]
                rcases List.mem_cons.mp hi with hx | hx
                · omega
                · have hx' : i ∈ Lm ∨ i ∈ Lcl := by
                    split at hx
                    · rcases List.mem_append.mp hx with h | h
                      · exact Or.inl h
                      · exact Or.inr h
                    · rcases List.mem_append.mp hx with h | h
                      · exact Or.inr h
                      · exact Or.inl h
                  rcases hx' with hx' | hx'
                  · have := hfreshm' i hx'
                    omega
                  · have := hfreshc' i hx'
                    omega
              · refine List.Nodup.cons ?_ ?_
                · intro hmem
                  have hx : q ∈ Lm ∨ q ∈ Lcl := by
                    split at hmem
                    · rcases List.mem_append.mp hmem with h | h
                      · exact Or.inl h
                      · exact Or.inr h
                    · rcases List.mem_append.mp hmem with h | h
                      · exact Or.inr h
                      · exact Or.inl h
                  rcases hx with hx | hx
                  · have := hfreshm' q hx
                    omega
                  · have := hfreshc' q hx
                    omega
                · split
                  · refine List.Nodup.append hndm hndc ?_
                    intro x hx hy
                    have h1 := hfreshm' x hx
                    have h2 := hfreshc' x hy
                    omega
                  · refine List.Nodup.append hndc hndm ?_
                    intro x hx hy
                    have h1 := hfreshc' x hx
                    have h2 := hfreshm' x hy
                    omega
            · -- the first operand's root survives; demoted tree is the second operand
              rcases ha : allocCell st { data := c1.data, left := none, right := none, dist := 0 }
                with _ | ⟨q, st1⟩
              · have hzero := allocCell_none_fuel ha
                have := hf 0 hzero
                omega
              obtain ⟨hq, hmem1, hfuel1⟩ := allocCell_ok ha
              have hlen1 : st1.mem.length = st.mem.length + 1 := by rw [hmem1]; simp
              have htr : ∀ (t : Tree α) (a : Option Nat) (L : List Nat), rep st.mem a t L →
                  rep st1.mem a t L := by
                intro t a L h
                refine rep_frame t st.mem st1.mem a L h ?_
                intro i hi
                have hilt := rep_lt t st.mem a L h i hi
                rw [hmem1, List.getElem?_append]
                simp [hilt]
              obtain ⟨mr, Lm, st2, heqm, hrepm, hlen2, hfuel2, hfreshm, hndm⟩ :=
                ih tr1 (Tree.node d2 tl2 tr2 s2) c1.right (some p2) st1 Lr1 L2
                  (htr tr1 c1.right Lr1 hrr1) (htr (Tree.node d2 tl2 tr2 s2) (some p2) L2 hr2)
                  (by omega) (by rw [hfuel1]; exact fuelGe_fuelSub (fuelGe_mono hf (by omega)))
              have hlen2' : st2.mem.length = st.mem.length + 1 +
                  (size tr1 + size (Tree.node d2 tl2 tr2 s2)) := by rw [hlen2, hlen1]
              have hfuel2' : st2.fuel =
                  fuelSub st.fuel (1 + (size tr1 + size (Tree.node d2 tl2 tr2 s2))) := by
                rw [hfuel2, hfuel1, fuelSub_fuelSub]
              have hfreshm' : ∀ i ∈ Lm, st.mem.length + 1 ≤ i ∧ i < st2.mem.length := by
                intro i hi
                have hx := hfreshm i hi
                omega
              have hfpm : framePres st1 st2 := by
                have hfp := mergeNodesM_frame cmp g c1.right (some p2) st1
                rw [heqm] at hfp
                exact hfp
              have hl1' : rep st2.mem c1.left tl1 Ll1 := by
                refine rep_frame tl1 st.mem st2.mem c1.left Ll1 hl1 ?_
                intro i hi
                have hilt := rep_lt tl1 st.mem c1.left Ll1 hl1 i hi
                rw [hfpm.2 i (by omega)]
                rw [hmem1, List.getElem?_append]
                simp [hilt]
              obtain ⟨cl, Lcl, st3, heqc, hrepc, hlen3, hfuel3, hfreshc, hndc⟩ :=
                copyTreeM_ok tl1 g c1.left st2 Ll1 hl1' (by omega)
                  (by rw [hfuel2']
                      exact fuelGe_fuelSub (fuelGe_mono hf (by omega)))
              have hlen3' : st3.mem.length = st2.mem.length + size tl1 := hlen3
              have hfreshc' : ∀ i ∈ Lcl, st2.mem.length ≤ i ∧ i < st3.mem.length := hfreshc
              have hfpc : framePres st2 st3 := by
                have hfp := copyTreeM_frame g c1.left st2
                rw [heqc] at hfp
                exact hfp
              have hrepm3 : rep st3.mem mr (mergeNodes cmp tr1 (Tree.node d2 tl2 tr2 s2)) Lm := by
                refine rep_frame _ st2.mem st3.mem mr Lm hrepm ?_
                intro i hi
                have hx := hfreshm i hi
                exact hfpc.2 i (by omega)
              have hcombine := rep_mkNode_write st3 q c1.data tl1
                (mergeNodes cmp tr1 (Tree.node d2 tl2 tr2 s2)) cl mr Lcl Lm hrepc hrepm3
                (by omega)
                (fun hmem => by have := hfreshc' q hmem; omega)
                (fun hmem => by have := hfreshm' q hmem; omega)
              refine ⟨some q,
                q :: (if getDistM st3 cl < getDistM st3 mr then Lm ++ Lcl else Lcl ++ Lm),
                writeCell st3 q
                  { data := c1.data,
                    left := if getDistM st3 cl < getDistM st3 mr then mr else cl,
                    right := if getDistM st3 cl < getDistM st3 mr then cl else mr,
                    dist := getDistM st3 (if getDistM st3 cl < getDistM st3 mr then cl else mr) + 1 },
                ?_, ?_, ?_, ?_, ?_, ?_⟩
              · simp only [mergeNodesM, hrc1, hrc2, if_neg hcmp, ha, heqm, heqc]
              · have hvc : ¬cmp d1 d2 = true := by rw [← hd1, ← hd2]; exact hcmp
                rw [mergeNodes, if_neg hvc]
                rw [← hd1]
                exact hcombine
              · simp only [writeCell, List.length_set]
                omega
              · simp only [writeCell]
                rw [hfuel3, hfuel2', fuelSub_fuelSub]
                congr 1
                omega
              · intro i hi
                simp only [writeCell, List.length_set]
                rcases List.mem_cons.mp hi with hx | hx
                · omega
                · have hx' : i ∈ Lm ∨ i ∈ Lcl := by
                    split at hx
                    · rcases List.mem_append.mp hx with h | h
                      · exact Or.inl h
                      · exact Or.inr h
                    · rcases List.mem_append.mp hx with h | h
                      · exact Or.inr h
                      · exact Or.inl h
                  rcases hx' with hx' | hx'
                  · have := hfreshm' i hx'
                    omega
                  · have := hfreshc' i hx'
                    omega
              · refine List.Nodup.cons ?_ ?_
                · intro hmem
                  have hx : q ∈ Lm ∨ q ∈ Lcl := by
                    split at hmem
                    · rcases List.mem_append.mp hmem with h | h
                      · exact Or.inl h
                      · exact Or.inr h
                    · rcases List.mem_append.mp hmem with h | h
                      · exact Or.inr h
                      · exact Or.inl h
                  rcases hx with hx | hx
                  · have := hfreshm' q hx
                    omega
                  · have := hfreshc' q hx
                    omega
                · split
                  · refine List.Nodup.append hndm hndc ?_
                    intro x hx hy
                    have h1 := hfreshm' x hx
                    have h2 := hfreshc' x hy
                    omega
                  · refine List.Nodup.append hndc hndm ?_
                    intro x hx hy
                    have h1 := hfreshc' x hx
                    have h2 := hfreshm' x hy
                    omega

theorem fuelGe_none (n : Nat) : fuelGe none n :=
  fun _ hk => Option.noConfusion hk

theorem deleteTreeM_ok {α : Type} :
    ∀ (t : Tree α) (g : Nat) (a : Option Nat) (st : St α) (L : List Nat),
      rep st.mem a t L → L.Nodup → size t < g →
      (∀ i, i ∉ L → (deleteTreeM g a st).mem[i]? = st.mem[i]?) ∧
      (deleteTreeM g a st).mem.length = st.mem.length ∧
      (deleteTreeM g a st).fuel = st.fuel := by
  intro t
  induction t with
  | nil =>
    intro g a st L h hnd hg
    cases a with
    | some p => exact h.elim
    | none =>
      cases g with
      | zero => simp [size] at hg
      | succ g => exact ⟨fun i _ => rfl, rfl, rfl⟩
  | node d tl tr dd ihl ihr =>
    intro g a st L h hnd hg
    cases a with
    | none => exact h.elim
    | some p =>
      cases g with
      | zero => simp [size] at hg
      | succ g =>
        simp only [rep] at h
        obtain ⟨c, Ll, Lr, hp, hd, hdd, hL, hl, hr⟩ := h
        subst hL
        have hndl : Ll.Nodup := (List.nodup_cons.mp hnd).2.of_append_left
        have hndr : Lr.Nodup := (List.nodup_cons.mp hnd).2.of_append_right
        have hdisj : ∀ x ∈ Ll, x ∉ Lr :=
          fun x hx => List.disjoint_of_nodup_append (List.nodup_cons.mp hnd).2 hx
        have hpl : p ∉ Ll := fun hx => (List.nodup_cons.mp hnd).1 (by simp [hx])
        have hpr : p ∉ Lr := fun hx => (List.nodup_cons.mp hnd).1 (by simp [hx])
        have hrc := readCell_of_mem hp
        have hszl : size tl < g := by simp only [size] at hg; omega
        have hszr : size tr < g := by simp only [size] at hg; omega
        obtain ⟨hfrl, hlenl, hful⟩ := ihl g c.left st Ll hl hndl hszl
        have hr1 : rep (deleteTreeM g c.left st).mem c.right tr Lr := by
          refine rep_frame tr st.mem _ c.right Lr hr ?_
          intro i hi
          exact hfrl i (fun hmem => hdisj i hmem hi)
        obtain ⟨hfrr, hlenr, hfur⟩ := ihr g c.right (deleteTreeM g c.left st) Lr hr1 hndr hszr
        refine ⟨?_, ?_, ?_⟩
        · intro i hi
          simp only [List.mem_cons, List.mem_append] at hi
          push_neg at hi
          simp only [deleteTreeM, hrc, freeCell]
          have hne : p ≠ i := fun he => hi.1 he.symm
          rw [List.getElem?_set_ne hne, hfrr i hi.2.2, hfrl i hi.2.1]
        · simp only [deleteTreeM, hrc, freeCell, List.length_set]
          rw [hlenr, hlenl]
        · simp only [deleteTreeM, hrc, freeCell]
          rw [hfur, hful]

theorem pushM_indep {α : Type} (cmp : α → α → Bool) (e : α)
    (st : St α) (aRoot : Option Nat) (ta : Tree α) (La : List Nat)
    (b : QueueM) (tb : Tree α) (Lb : List Nat) (g : Nat)
    (h : indep st aRoot ta La b tb Lb) (hg : st.mem.length + 3 ≤ g) :
    ∃ tb' Lb',
      indep (pushM cmp e b g st).2.2 aRoot ta La (pushM cmp e b g st).1 tb' Lb' ∧
      (∀ i ∈ La, ((pushM cmp e b g st).2.2).mem[i]? = st.mem[i]?) := by
  obtain ⟨hrepa, hrepb, hnda, hndb, hdisj, hsz, hfuel⟩ := h
  have hLbl : ∀ i ∈ Lb, i < st.mem.length := rep_lt tb st.mem b.root Lb hrepb
  have hLal : ∀ i ∈ La, i < st.mem.length := rep_lt ta st.mem aRoot La hrepa
  have hszb : size tb ≤ st.mem.length := by
    rw [← rep_length tb st.mem b.root Lb hrepb]
    exact nodup_lt_length_le hndb hLbl
  have hfge : fuelGe st.fuel 1 := by rw [hfuel]; exact fuelGe_none 1
  have ha := allocCell_some_of_fuelGe
    { data := e, left := none, right := none, dist := 0 } hfge
  have happ : ∀ (t : Tree α) (a : Option Nat) (L : List Nat), rep st.mem a t L →
      rep (st.mem ++ [some { data := e, left := none, right := none, dist := 0 }]) a t L := by
    intro t a L hx
    refine rep_frame t st.mem _ a L hx ?_
    intro i hi
    have hlt := rep_lt t st.mem a L hx i hi
    rw [List.getElem?_append]
    simp [hlt]
  have hrepsing : rep (st.mem ++ [some { data := e, left := none, right := none, dist := 0 }])
      (some st.mem.length) (Tree.node e Tree.nil Tree.nil 0) [st.mem.length] := by
    simp only [rep]
    refine ⟨{ data := e, left := none, right := none, dist := 0 }, [], [], ?_, rfl, rfl, rfl,
      rfl, rfl⟩
    simp
  obtain ⟨r, Lm, st2, heqm, hrepm, hlen2, hfuel2, hfreshm, hndm⟩ :=
    mergeNodesM_ok cmp g tb (Tree.node e Tree.nil Tree.nil 0) b.root (some st.mem.length)
      { mem := st.mem ++ [some { data := e, left := none, right := none, dist := 0 }],
        fuel := fuelSub st.fuel 1 } Lb [st.mem.length]
      (happ tb b.root Lb hrepb) hrepsing
      (by simp only [size]; omega)
      (by rw [hfuel]; exact fuelGe_none _)
  have hlen2' : st2.mem.length = st.mem.length + 1 + (size tb + 1) := by
    rw [hlen2]
    simp [size]
  have hfuel2' : st2.fuel = none := by
    rw [hfuel2, hfuel]
    rfl
  have hfreshm' : ∀ i ∈ Lm, st.mem.length + 1 ≤ i ∧ i < st2.mem.length := by
    intro i hi
    have hx := hfreshm i hi
    simp only [List.length_append, List.length_cons, List.length_nil] at hx
    omega
  have hfpm : framePres
      { mem := st.mem ++ [some { data := e, left := none, right := none, dist := 0 }],
        fuel := fuelSub st.fuel 1 } st2 := by
    have hfp := mergeNodesM_frame cmp g b.root (some st.mem.length)
      { mem := st.mem ++ [some { data := e, left := none, right := none, dist := 0 }],
        fuel := fuelSub st.fuel 1 }
    rw [heqm] at hfp
    exact hfp
  have hkeep : ∀ i, i < st.mem.length → st2.mem[i]? = st.mem[i]? := by
    intro i hilt
    have h1 : st2.mem[i]? =
        (st.mem ++ [some { data := e, left := none, right := none, dist := 0 }])[i]? := by
      refine hfpm.2 i ?_
      simp
      omega
    rw [h1, List.getElem?_append]
    simp [hilt]
  have hrepb2 : rep st2.mem b.root tb Lb := by
    refine rep_frame tb st.mem st2.mem b.root Lb hrepb ?_
    intro i hi
    exact hkeep i (hLbl i hi)
  obtain ⟨hdfr, hdlen, hdfuel⟩ := deleteTreeM_ok tb g b.root st2 Lb hrepb2 hndb (by omega)
  have hpush : pushM cmp e b g st =
      ({ root := r, curSize := b.curSize + 1 }, none, deleteTreeM g b.root st2) := by
    simp only [pushM, ha, heqm]
  refine ⟨mergeNodes cmp tb (Tree.node e Tree.nil Tree.nil 0), Lm, ?_, ?_⟩
  · rw [hpush]
    refine ⟨?_, ?_, hnda, hndm, ?_, ?_, ?_⟩
    · refine rep_frame ta st.mem _ aRoot La hrepa ?_
      intro i hi
      rw [hdfr i (fun hmem => hdisj i hi hmem)]
      exact hkeep i (hLal i hi)
    · refine rep_frame _ st2.mem _ r Lm hrepm ?_
      intro i hi
      refine hdfr i (fun hmem => ?_)
      have h1 := hfreshm' i hi
      have h2 := hLbl i hmem
      omega
    · intro i hi
      intro hmem
      have h1 := hfreshm' i hmem
      have h2 := hLal i hi
      omega
    · simp only [size_mergeNodes, size]
      omega
    · rw [hdfuel, hfuel2']
  · intro i hi
    rw [hpush]
    rw [hdfr i (fun hmem => hdisj i hi hmem)]
    exact hkeep i (hLal i hi)

theorem popM_indep {α : Type} (cmp : α → α → Bool)
    (st : St α) (aRoot : Option Nat) (ta : Tree α) (La : List Nat)
    (b : QueueM) (tb : Tree α) (Lb : List Nat) (g : Nat)
    (h : indep st aRoot ta La b tb Lb) (hg : st.mem.length + 3 ≤ g) :
    ∃ tb' Lb',
      indep (popM cmp b g st).2.2 aRoot ta La (popM cmp b g st).1 tb' Lb' ∧
      (∀ i ∈ La, ((popM cmp b g st).2.2).mem[i]? = st.mem[i]?) := by
  obtain ⟨hrepa, hrepb, hnda, hndb, hdisj, hsz, hfuel⟩ := h
  by_cases h0 : b.curSize = 0
  · have hpop : popM cmp b g st = (b, some QError.containerIsEmpty, st) := by
      simp [popM, h0]
    exact ⟨tb, Lb, by rw [hpop]; exact ⟨hrepa, hrepb, hnda, hndb, hdisj, hsz, hfuel⟩,
      fun i hi => by rw [hpop]⟩
  · have hLbl : ∀ i ∈ Lb, i < st.mem.length := rep_lt tb st.mem b.root Lb hrepb
    have hLal : ∀ i ∈ La, i < st.mem.length := rep_lt ta st.mem aRoot La hrepa
    have hszb : size tb ≤ st.mem.length := by
      rw [← rep_length tb st.mem b.root Lb hrepb]
      exact nodup_lt_length_le hndb hLbl
    cases tb with
    | nil => rw [hsz] at h0; simp [size] at h0
    | node d tl tr dd =>
      cases hb : b.root with
      | none => rw [hb] at hrepb; exact hrepb.elim
      | some p =>
        rw [hb] at hrepb
        have hrepbFull := hrepb
        simp only [rep] at hrepb
        obtain ⟨c, Ll, Lr, hp, hd, hdd, hL, hl, hr⟩ := hrepb
        have hrc := readCell_of_mem hp
        have htb : size (Tree.node d tl tr dd) = 1 + size tl + size tr := rfl
        obtain ⟨l1, Lcl, st1, heql, hrepl1, hlen1, hfuel1, hfreshl, hndl1⟩ :=
          copyTreeM_ok tl g c.left st Ll hl (by omega) (by rw [hfuel]; exact fuelGe_none _)
        have hfuel1' : st1.fuel = none := by rw [hfuel1, hfuel]; rfl
        have hfp1 : framePres st st1 := by
          have hfp := copyTreeM_frame g c.left st
          rw [heql] at hfp
          exact hfp
        have hr1 : rep st1.mem c.right tr Lr := by
          refine rep_frame tr st.mem st1.mem c.right Lr hr ?_
          intro i hi
          exact hfp1.2 i (rep_lt tr st.mem c.right Lr hr i hi)
        obtain ⟨r1, Lcr, st2, heqr, hrepr2, hlen2, hfuel2, hfreshr, hndr2⟩ :=
          copyTreeM_ok tr g c.right st1 Lr hr1 (by omega)
            (by rw [hfuel1']; exact fuelGe_none _)
        have hfuel2' : st2.fuel = none := by rw [hfuel2, hfuel1']; rfl
        have hfp2 : framePres st1 st2 := by
          have hfp := copyTreeM_frame g c.right st1
          rw [heqr] at hfp
          exact hfp
        have hrepl2 : rep st2.mem l1 tl Lcl := by
          refine rep_frame tl st1.mem st2.mem l1 Lcl hrepl1 ?_
          intro i hi
          exact hfp2.2 i ((hfreshl i hi).2)
        obtain ⟨nr, Lm, st3, heqm, hrepm, hlen3, hfuel3, hfreshm, hndm⟩ :=
          mergeNodesM_ok cmp g tl tr l1 r1 st2 Lcl Lcr hrepl2 hrepr2 (by omega)
            (by rw [hfuel2']; exact fuelGe_none _)
        have hfuel3' : st3.fuel = none := by rw [hfuel3, hfuel2']; rfl
        have hfp3 : framePres st2 st3 := by
          have hfp := mergeNodesM_frame cmp g l1 r1 st2
          rw [heqm] at hfp
          exact hfp
        have hfp13 : framePres st st3 := framePres_trans (framePres_trans hfp1 hfp2) hfp3
        have hlen12 : st.mem.length ≤ st1.mem.length := hfp1.1
        have hlen23 : st1.mem.length ≤ st2.mem.length := hfp2.1
        have hrepb3 : rep st3.mem (some p) (Tree.node d tl tr dd) Lb := by
          refine rep_frame _ st.mem st3.mem (some p) Lb hrepbFull ?_
          intro i hi
          exact hfp13.2 i (hLbl i hi)
        obtain ⟨hdfr, hdlen, hdfuel⟩ :=
          deleteTreeM_ok (Tree.node d tl tr dd) g (some p) st3 Lb hrepb3 hndb (by omega)
        have hpop : popM cmp b g st =
            ({ root := nr, curSize := b.curSize - 1 }, none, deleteTreeM g (some p) st3) := by
          simp only [popM, if_neg h0, hb, hrc, heql, heqr, heqm]
        refine ⟨mergeNodes cmp tl tr, Lm, ?_, ?_⟩
        · rw [hpop]
          refine ⟨?_, ?_, hnda, hndm, ?_, ?_, ?_⟩
          · refine rep_frame ta st.mem _ aRoot La hrepa ?_
            intro i hi
            rw [hdfr i (fun hmem => hdisj i hi hmem)]
            exact hfp13.2 i (hLal i hi)
          · refine rep_frame _ st3.mem _ nr Lm hrepm ?_
            intro i hi
            refine hdfr i (fun hmem => ?_)
            have h1 := hfreshm i hi
            have h2 := hLbl i hmem
            omega
          · intro i hi
            intro hmem
            have h1 := hfreshm i hmem
            have h2 := hLal i hi
            omega
          · simp only [size_mergeNodes]
            rw [hsz] at h0 ⊢
            simp only [size] at h0 ⊢
            omega
          · rw [hdfuel, hfuel3']
        · intro i hi
          rw [hpop]
          rw [hdfr i (fun hmem => hdisj i hi hmem)]
          exact hfp13.2 i (hLal i hi)

theorem runOps_indep {α : Type} (cmp : α → α → Bool) :
    ∀ (ops : List (OpK α)) (st : St α) (aRoot : Option Nat) (ta : Tree α) (La : List Nat)
      (b : QueueM) (tb : Tree α) (Lb : List Nat),
      indep st aRoot ta La b tb Lb →
      (∀ i ∈ La, ((runOps cmp ops b st).2).mem[i]? = st.mem[i]?) ∧
      rep ((runOps cmp ops b st).2).mem aRoot ta La := by
  intro ops
  induction ops with
  | nil =>
    intro st aRoot ta La b tb Lb h
    exact ⟨fun i hi => rfl, h.1⟩
  | cons op ops ih =>
    intro st aRoot ta La b tb Lb h
    cases op with
    | push e =>
      obtain ⟨tb', Lb', hind, hkeep⟩ := pushM_indep cmp e st aRoot ta La b tb Lb
        (st.mem.length + 3) h (le_refl _)
      obtain ⟨hkeep2, hrep2⟩ := ih _ aRoot ta La _ tb' Lb' hind
      simp only [runOps]
      constructor
      · intro i hi
        rw [hkeep2 i hi, hkeep i hi]
      · exact hrep2
    | pop =>
      obtain ⟨tb', Lb', hind, hkeep⟩ := popM_indep cmp st aRoot ta La b tb Lb
        (st.mem.length + 3) h (le_refl _)
      obtain ⟨hkeep2, hrep2⟩ := ih _ aRoot ta La _ tb' Lb' hind
      simp only [runOps]
      constructor
      · intro i hi
        rw [hkeep2 i hi, hkeep i hi]
      · exact hrep2

/-- Claim C7: mergeNodes is non-destructive.  First, for every gas bound,
every pair of operand pointers and every starting state, on success and on
failure alike, every cell that existed before the call (in particular every
node of either operand tree) is bit-for-bit unchanged afterwards: no node is
modified, re-linked or freed.  Second, on well-formed operands with enough
gas and fuel the call succeeds and returns a tree built entirely from
freshly allocated cells that represents the value-level merge of the two
operand trees.  Third, that merged value contains exactly the multiset union
of the operands' elements. -/
theorem mergeNodes_nondestructive {α : Type} (cmp : α → α → Bool) :
    (∀ (g : Nat) (h1 h2 : Option Nat) (st : St α) (i : Nat), i < st.mem.length →
      ((mergeNodesM cmp g h1 h2 st).2).mem[i]? = st.mem[i]?) ∧
    (∀ (g : Nat) (t1 t2 : Tree α) (h1 h2 : Option Nat) (st : St α) (L1 L2 : List Nat),
      rep st.mem h1 t1 L1 → rep st.mem h2 t2 L2 →
      size t1 + size t2 + 1 < g → fuelGe st.fuel (size t1 + size t2) →
      ∃ r L' st', mergeNodesM cmp g h1 h2 st = (Except.ok r, st') ∧
        rep st'.mem r (mergeNodes cmp t1 t2) L' ∧
        (∀ i ∈ L', st.mem.length ≤ i)) ∧
    (∀ t1 t2 : Tree α, elems (mergeNodes cmp t1 t2) = elems t1 + elems t2) := by
  refine ⟨?_, ?_, elems_mergeNodes cmp⟩
  · intro g h1 h2 st i hi
    exact (mergeNodesM_frame cmp g h1 h2 st).2 i hi
  · intro g t1 t2 h1 h2 st L1 L2 hr1 hr2 hg hf
    obtain ⟨r, L', st', heq, hrep, hlen, hfu, hfresh, hnd⟩ :=
      mergeNodesM_ok cmp g t1 t2 h1 h2 st L1 L2 hr1 hr2 hg hf
    exact ⟨r, L', st', heq, hrep, fun i hi => (hfresh i hi).1⟩

/-- Witness for C7: merging two singleton heaps at addresses 0 and 1
succeeds and builds its result exclusively from fresh addresses (at least
2). -/
theorem mergeNodes_nondestructive_witness :
    ∃ r L' st',
      mergeNodesM cmpNat 4 (some 0) (some 1)
        { mem := [some { data := 5, left := none, right := none, dist := 0 },
                  some { data := 9, left := none, right := none, dist := 0 }],
          fuel := none } = (Except.ok r, st') ∧
      rep st'.mem r
        (mergeNodes cmpNat (Tree.node 5 Tree.nil Tree.nil 0) (Tree.node 9 Tree.nil Tree.nil 0))
        L' ∧
      (∀ i ∈ L', 2 ≤ i) := by
  refine (mergeNodes_nondestructive cmpNat).2.1 4
    (Tree.node 5 Tree.nil Tree.nil 0) (Tree.node 9 Tree.nil Tree.nil 0) (some 0) (some 1)
    { mem := [some { data := 5, left := none, right := none, dist := 0 },
              some { data := 9, left := none, right := none, dist := 0 }],
      fuel := none } [0] [1] ?_ ?_ (by decide) (fuelGe_none _)
  · refine ⟨{ data := 5, left := none, right := none, dist := 0 }, [], [], rfl, rfl, rfl,
      rfl, rfl, rfl⟩
  · refine ⟨{ data := 9, left := none, right := none, dist := 0 }, [], [], rfl, rfl, rfl,
      rfl, rfl, rfl⟩

/-- Claim C6 is false of the code (the spec states the intended behaviour):
when the clone of the right child fails inside copyTree, the catch block
runs `delete newNode`, which frees only the new node itself because struct
Node has no destructor, so the already-cloned left subtree (already attached
to newNode->left) stays allocated and unreachable.  Concretely: copying the
three-node tree at address 0 with the failure injected at the third
allocation fails, frees the new root (address 3), and leaks the cloned left
leaf (address 4), which is still allocated when the failure propagates.
The same pattern leaks the merged right subtree in mergeNodes when the
subsequent copyTree of the left child fails. -/
theorem copyTree_failure_leak :
    (copyTreeM 10 (some 0)
      { mem := [some { data := 10, left := some 1, right := some 2, dist := 1 },
                some { data := 5, left := none, right := none, dist := 0 },
                some { data := 7, left := none, right := none, dist := 0 }],
        fuel := some 2 } : Except Unit (Option Nat) × St Nat).1 = Except.error () ∧
    ((copyTreeM 10 (some 0)
      { mem := [some { data := 10, left := some 1, right := some 2, dist := 1 },
                some { data := 5, left := none, right := none, dist := 0 },
                some { data := 7, left := none, right := none, dist := 0 }],
        fuel := some 2 } : Except Unit (Option Nat) × St Nat).2).mem[3]? = some none ∧
    ((copyTreeM 10 (some 0)
      { mem := [some { data := 10, left := some 1, right := some 2, dist := 1 },
                some { data := 5, left := none, right := none, dist := 0 },
                some { data := 7, left := none, right := none, dist := 0 }],
        fuel := some 2 } : Except Unit (Option Nat) × St Nat).2).mem[4]? =
      some (some { data := 5, left := none, right := none, dist := 0 }) ∧
    ((copyTreeM 10 (some 0)
      { mem := [some { data := 10, left := some 1, right := some 2, dist := 1 },
                some { data := 5, left := none, right := none, dist := 0 },
                some { data := 7, left := none, right := none, dist := 0 }],
        fuel := some 2 } : Except Unit (Option Nat) × St Nat).2).fuel = some 0 := by
  refine ⟨rfl, rfl, rfl, rfl⟩

/-- Claim C8: copy independence.  Self-assignment is a no-op; a clone
(copyTree, as used by copy construction and copy assignment) is built
exclusively from fresh cells, so it shares no tree node with any
pre-existing tree, in particular not with its source; and any sequence of
push/pop mutations applied to one queue whose tree is node-disjoint from
another tree leaves every cell of that other tree unchanged, so the other
queue's size() and top() are unchanged. -/
theorem copy_independence {α : Type} (cmp : α → α → Bool) :
    (∀ (dst src : Queue α), opAssign true dst src = dst) ∧
    (∀ (t : Tree α) (g : Nat) (a : Option Nat) (st : St α) (L : List Nat),
      rep st.mem a t L → size t < g → fuelGe st.fuel (size t) →
      ∃ r L' st', copyTreeM g a st = (Except.ok r, st') ∧ rep st'.mem r t L' ∧
        L'.Nodup ∧ (∀ i ∈ L', st.mem.length ≤ i) ∧ ∀ i ∈ L, i ∉ L') ∧
    (∀ (ops : List (OpK α)) (st : St α) (aRoot : Option Nat) (ta : Tree α) (La : List Nat)
      (b : QueueM) (tb : Tree α) (Lb : List Nat),
      indep st aRoot ta La b tb Lb →
      (∀ i ∈ La, ((runOps cmp ops b st).2).mem[i]? = st.mem[i]?) ∧
      rep ((runOps cmp ops b st).2).mem aRoot ta La) := by
  refine ⟨?_, ?_, ?_⟩
  · intro dst src
    simp [opAssign]
  · intro t g a st L hrep hg hf
    obtain ⟨r, L', st', heq, hrep', hlen, hfu, hfresh, hnd⟩ :=
      copyTreeM_ok t g a st L hrep hg hf
    refine ⟨r, L', st', heq, hrep', hnd, fun i hi => (hfresh i hi).1, ?_⟩
    intro i hi hmem
    have h1 := rep_lt t st.mem a L hrep i hi
    have h2 := (hfresh i hmem).1
    omega
  · intro ops st aRoot ta La b tb Lb h
    exact runOps_indep cmp ops st aRoot ta La b tb Lb h

/-- Witness for C8: a one-node tree at address 0 is unaffected by pushing 7
onto an initially empty independent queue in the same memory. -/
theorem copy_independence_witness :
    (∀ i ∈ [0],
      ((runOps cmpNat [OpK.push 7] { root := none, curSize := 0 }
        { mem := [some { data := 5, left := none, right := none, dist := 0 }],
          fuel := none }).2).mem[i]? =
      ({ mem := [some { data := 5, left := none, right := none, dist := 0 }],
          fuel := none } : St Nat).mem[i]?) ∧
    rep ((runOps cmpNat [OpK.push 7] { root := none, curSize := 0 }
        { mem := [some { data := 5, left := none, right := none, dist := 0 }],
          fuel := none }).2).mem (some 0) (Tree.node 5 Tree.nil Tree.nil 0) [0] := by
  refine (copy_independence cmpNat).2.2 [OpK.push 7]
    { mem := [some { data := 5, left := none, right := none, dist := 0 }], fuel := none }
    (some 0) (Tree.node 5 Tree.nil Tree.nil 0) [0]
    { root := none, curSize := 0 } Tree.nil [] ⟨?_, rfl, ?_, ?_, ?_, rfl, rfl⟩
  · refine ⟨{ data := 5, left := none, right := none, dist := 0 }, [], [], rfl, rfl, rfl,
      rfl, rfl, rfl⟩
  · simp
  · simp
  · simp

end sjtu
